import Mathlib

set_option maxRecDepth 4000

/-!
Verification of the comment-tolerant JSON normalizer implemented in
src/.ci/remove-json-comments.py.  Text is modelled as List Char.  The
cleaning passes (line-comment stripping, block-comment stripping,
trailing-comma removal, blank-line compaction) are translated from the
Python source function remove_comments_from_json_string; the
preprocessing and validation wrapper comes from clean_json_content, and
the re-emission from process_json_file (json.dump with indent 2 and
ensure_ascii False).  The json.loads / json.dump library calls are
modelled by an executable recursive-descent parser and serializer over
the standard JSON value grammar, restricted to arbitrary-precision
integer numbers (float literals are IEEE-specific and outside the
model; lone surrogate escape sequences are not representable in the
Lean Char type and are likewise rejected by the modelled parser).
-/

namespace Unre

/-- Characters counted as whitespace by the Python str.isspace test and
by the regex class backslash-s in the default Unicode mode: the ASCII
controls 9 to 13, the separators 28 to 31, the space, and the Unicode
space characters. -/
def pySpace (c : Char) : Bool :=
  ([9, 10, 11, 12, 13, 28, 29, 30, 31, 32, 0x85, 0xA0, 0x1680] : List Nat).contains c.toNat
  || (0x2000 ≤ c.toNat && c.toNat ≤ 0x200A)
  || ([0x2028, 0x2029, 0x202F, 0x205F, 0x3000] : List Nat).contains c.toNat

/-- Line-boundary characters of the Python str.splitlines method, with
the carriage-return newline pair handled separately. -/
def isLineBreak (c : Char) : Bool :=
  ([10, 11, 12, 13, 28, 29, 30, 0x85, 0x2028, 0x2029] : List Nat).contains c.toNat

/-- Worker for pySplitlines: accumulates the current line in reverse. -/
def splitLinesGo : List Char → List Char → List (List Char)
  | [], acc => [acc.reverse]
  | '\r' :: '\n' :: rest, acc =>
      acc.reverse :: (if rest.isEmpty then [] else splitLinesGo rest [])
  | c :: rest, acc =>
      if isLineBreak c then
        acc.reverse :: (if rest.isEmpty then [] else splitLinesGo rest [])
      else splitLinesGo rest (c :: acc)

/-- Model of the Python str.splitlines method: splits at every line
boundary, treats a carriage return followed by a newline as one
boundary, drops a trailing empty line, and returns the empty list on
empty input. -/
def pySplitlines (s : List Char) : List (List Char) :=
  if s.isEmpty then [] else splitLinesGo s []

/-- Join with a newline separator, as the Python newline join call. -/
def nlJoin (ls : List (List Char)) : List Char :=
  List.intercalate ['\n'] ls

/-- Scan state of the line-comment pass of
remove_comments_from_json_string (lines 9 to 36 of the source): the
in_string and escape_next flags.  Both are initialized once, before the
loop over lines, and are never reset at a line boundary. -/
structure LCState where
  inString : Bool
  escNext : Bool
deriving DecidableEq, Repr

/-- One line of the line-comment pass: the inner while loop of the
source.  An unquoted pair of slashes discards the rest of the line
(the break statement); otherwise characters are copied, with the
backslash setting escape_next unconditionally and an unescaped double
quote toggling in_string. -/
def scanLine : LCState → List Char → List Char × LCState
  | st, [] => ([], st)
  | st, [c] =>
      if st.escNext then ([c], ⟨st.inString, false⟩)
      else if c = '\\' then ([c], ⟨st.inString, true⟩)
      else if c = '"' then ([c], ⟨!st.inString, st.escNext⟩)
      else ([c], st)
  | st, c :: d :: rest =>
      if st.escNext then
        let r := scanLine ⟨st.inString, false⟩ (d :: rest)
        (c :: r.1, r.2)
      else if c = '\\' then
        let r := scanLine ⟨st.inString, true⟩ (d :: rest)
        (c :: r.1, r.2)
      else if c = '"' then
        let r := scanLine ⟨!st.inString, st.escNext⟩ (d :: rest)
        (c :: r.1, r.2)
      else if c = '/' && d = '/' && !st.inString then
        ([], st)
      else
        let r := scanLine st (d :: rest)
        (c :: r.1, r.2)

/-- Folds scanLine over the list of physical lines, threading the state
from the end of one line to the start of the next, exactly as the outer
for loop of the source does with its module-level flags. -/
def scanLines : LCState → List (List Char) → List (List Char) × LCState
  | st, [] => ([], st)
  | st, l :: ls =>
      let r := scanLine st l
      let rs := scanLines r.2 ls
      (r.1 :: rs.1, rs.2)

/-- The complete line-comment pass: split into physical lines, scan each
line carrying the state across lines, and rejoin with newlines. -/
def linePass (s : List Char) : List Char :=
  nlJoin (scanLines ⟨false, false⟩ (pySplitlines s)).1

/-- Scan state of the block-comment pass (lines 38 to 68 of the
source): in_string, escape_next and in_comment. -/
structure BCState where
  inString : Bool
  escNext : Bool
  inComment : Bool
deriving DecidableEq, Repr

/-- The block-comment pass while loop.  Characters inside a comment are
discarded; a slash-star outside a string opens a comment and skips the
star; a star-slash inside a comment closes it and skips the slash.  The
backslash branch sets escape_next even inside a comment, and a quote
inside a comment neither toggles in_string nor is copied. -/
def scanBlock : BCState → List Char → List Char × BCState
  | st, [] => ([], st)
  | st, [c] =>
      if st.escNext then
        (if st.inComment then [] else [c], ⟨st.inString, false, st.inComment⟩)
      else if c = '\\' then
        (if st.inComment then [] else [c], ⟨st.inString, true, st.inComment⟩)
      else if c = '"' then
        if st.inComment then ([], st)
        else ([c], ⟨!st.inString, st.escNext, st.inComment⟩)
      else if !st.inComment then ([c], st)
      else ([], st)
  | st, c :: d :: rest =>
      if st.escNext then
        let r := scanBlock ⟨st.inString, false, st.inComment⟩ (d :: rest)
        (if st.inComment then r.1 else c :: r.1, r.2)
      else if c = '\\' then
        let r := scanBlock ⟨st.inString, true, st.inComment⟩ (d :: rest)
        (if st.inComment then r.1 else c :: r.1, r.2)
      else if c = '"' then
        if st.inComment then scanBlock st (d :: rest)
        else
          let r := scanBlock ⟨!st.inString, st.escNext, st.inComment⟩ (d :: rest)
          (c :: r.1, r.2)
      else if c = '/' && d = '*' && !st.inString then
        scanBlock ⟨st.inString, st.escNext, true⟩ rest
      else if c = '*' && d = '/' && st.inComment then
        scanBlock ⟨st.inString, st.escNext, false⟩ rest
      else if !st.inComment then
        let r := scanBlock st (d :: rest)
        (c :: r.1, r.2)
      else
        scanBlock st (d :: rest)

/-- The complete block-comment pass, started with all flags clear. -/
def blockPass (s : List Char) : List Char :=
  (scanBlock ⟨false, false, false⟩ s).1

/-- Lookahead of the trailing-comma regex after the comma: a maximal
run of regex whitespace followed by a closing brace or bracket. -/
def matchWB : List Char → Bool
  | [] => false
  | c :: rest => if pySpace c then matchWB rest else (c = '\x7d' || c = ']')

/-- Model of the substitution re.sub of comma, whitespace, closing
bracket by the captured whitespace and bracket (line 72 of the source).
Since every match begins with a comma and the matched whitespace and
bracket contain no comma, deleting the comma and rescanning from the
following character produces exactly the non-overlapping left-to-right
replacement that re.sub performs. -/
def commaSub : List Char → List Char
  | [] => []
  | c :: rest =>
      if c = ',' && matchWB rest then commaSub rest
      else c :: commaSub rest

/-- A line survives the blank-line filter when it has a character that
the Python str.strip call would keep. -/
def blankKeep (l : List Char) : Bool :=
  l.any (fun c => !pySpace c)

/-- The blank-line compaction (line 75 of the source): split into
physical lines, keep the non-blank ones, and rejoin with newlines. -/
def blankPass (s : List Char) : List Char :=
  nlJoin ((pySplitlines s).filter blankKeep)

/-- The function remove_comments_from_json_string of the source: the
line-comment pass, then the block-comment pass, then trailing-comma
removal, then blank-line compaction. -/
def remove_comments_from_json_string (s : List Char) : List Char :=
  blankPass (commaSub (blockPass (linePass s)))

/-- The preprocessing part of clean_json_content (lines 82 to 88 of
the source): strip one leading byte-order mark, remove null bytes, and
remove the remaining characters below code point 32 other than newline,
carriage return and tab. -/
def preprocess (s : List Char) : List Char :=
  let s1 := if s.head? = some '\uFEFF' then s.tail else s
  let s2 := s1.filter (fun c => c != '\x00')
  s2.filter (fun c => decide (32 ≤ c.toNat) || c == '\n' || c == '\r' || c == '\t')

/-- The text that clean_json_content hands to the JSON parser:
preprocessing followed by comment and comma cleaning. -/
def cleanedText (s : List Char) : List Char :=
  remove_comments_from_json_string (preprocess s)

example : linePass "\x7b\"a\": 1, // c".data = "\x7b\"a\": 1, ".data := by rfl
example : linePass "\x7b\"url\": \"http://x\"\x7d".data = "\x7b\"url\": \"http://x\"\x7d".data := by rfl
example : linePass "\\\n//".data = "\\\n//".data := by rfl
example : blockPass "/*\\*/x".data = [] := by rfl
example : blockPass "a/*b*/c".data = "ac".data := by rfl
example : commaSub ",,]".data = ",]".data := by rfl
example : commaSub "a, \x7d".data = "a \x7d".data := by rfl
example : preprocess "\uFEFF\uFEFF".data = ['\uFEFF'] := by rfl

mutual
inductive JVal where
  | null : JVal
  | bool : Bool → JVal
  | num : Int → JVal
  | str : List Char → JVal
  | arr : JArr → JVal
  | obj : JObj → JVal
inductive JArr where
  | nil : JArr
  | cons : JVal → JArr → JArr
inductive JObj where
  | nil : JObj
  | cons : List Char → JVal → JObj → JObj
end

/-- Lower-case hexadecimal digit, as the format specifier 04x used by
the json serializer for control-character escapes. -/
def hexDigit (n : Nat) : Char :=
  Char.ofNat (if n < 10 then 48 + n else 87 + n)

/-- Serialization of one character inside a JSON string, following the
escape table of json.dump with ensure_ascii False: quote, backslash and
the named control escapes are written with a backslash, the remaining
characters below code point 32 as a four-digit u-escape, and everything
else literally. -/
def escChar (c : Char) : List Char :=
  if c = '"' then ['\\', '"']
  else if c = '\\' then ['\\', '\\']
  else if c = '\n' then ['\\', 'n']
  else if c = '\r' then ['\\', 'r']
  else if c = '\t' then ['\\', 't']
  else if c = '\x08' then ['\\', 'b']
  else if c = '\x0c' then ['\\', 'f']
  else if c.toNat < 32 then
    ['\\', 'u', '0', '0', hexDigit (c.toNat / 16), hexDigit (c.toNat % 16)]
  else [c]

/-- Serialized body of a JSON string (without the enclosing quotes). -/
def escBody (s : List Char) : List Char :=
  (s.map escChar).flatten

/-- Serialized JSON string with its enclosing quotes. -/
def escString (s : List Char) : List Char :=
  '"' :: escBody s ++ ['"']

/-- Decimal digits of a positive number, least significant first; the
first argument is fuel and any fuel at least the number works. -/
def natToRevDigits : Nat → Nat → List Nat
  | 0, _ => []
  | _ + 1, 0 => []
  | f + 1, n + 1 => ((n + 1) % 10) :: natToRevDigits f ((n + 1) / 10)

/-- Character for one decimal digit. -/
def digitChar (d : Nat) : Char :=
  Char.ofNat (48 + d)

/-- Decimal representation of a natural number, as Python str. -/
def natRepr (n : Nat) : List Char :=
  if n = 0 then ['0'] else (natToRevDigits n n).reverse.map digitChar

/-- Decimal representation of an integer, as Python str of an int. -/
def intRepr (i : Int) : List Char :=
  if i < 0 then '-' :: natRepr i.natAbs else natRepr i.natAbs

/-- Indentation prefix written by json.dump with indent 2 at a given
nesting level. -/
def indentSp (lv : Nat) : List Char :=
  List.replicate (2 * lv) ' '

mutual
/-- Serialization of a JSON value by json.dump with indent 2 and
ensure_ascii False: containers open with a newline, indent their items
by two further spaces, separate them with a comma and newline, and
close on a fresh line at the enclosing indentation; the key separator
is a colon and one space. -/
def dumpsV : Nat → JVal → List Char
  | _, .null => "null".data
  | _, .bool true => "true".data
  | _, .bool false => "false".data
  | _, .num i => intRepr i
  | _, .str s => escString s
  | lv, .arr a =>
      (match a with
       | .nil => "[]".data
       | .cons _ _ =>
           '[' :: '\n' :: (dumpsItems (lv + 1) a ++ '\n' :: (indentSp lv ++ [']'])))
  | lv, .obj o =>
      (match o with
       | .nil => "\x7b\x7d".data
       | .cons _ _ _ =>
           '\x7b' :: '\n' :: (dumpsPairs (lv + 1) o ++ '\n' :: (indentSp lv ++ ['\x7d'])))
/-- Serialized array items, each on its own indented line. -/
def dumpsItems : Nat → JArr → List Char
  | _, .nil => []
  | lv, .cons x .nil => indentSp lv ++ dumpsV lv x
  | lv, .cons x (.cons y tl) =>
      indentSp lv ++ dumpsV lv x ++ ',' :: '\n' :: dumpsItems lv (.cons y tl)
/-- Serialized object members, each on its own indented line. -/
def dumpsPairs : Nat → JObj → List Char
  | _, .nil => []
  | lv, .cons k v .nil => indentSp lv ++ (escString k ++ ':' :: ' ' :: dumpsV lv v)
  | lv, .cons k v (.cons k2 v2 tl) =>
      indentSp lv ++ (escString k ++ ':' :: ' ' :: dumpsV lv v) ++ ',' :: '\n' :: dumpsPairs lv (.cons k2 v2 tl)
end

/-- Top-level serialization, at nesting level zero. -/
def dumps (v : JVal) : List Char :=
  dumpsV 0 v

example : dumps (.obj (.cons "a".data (.num 1) .nil)) = "\x7b\n  \"a\": 1\n\x7d".data := by rfl
example : dumps (.arr (.cons (.num 1) (.cons (.num 2) .nil))) = "[\n  1,\n  2\n]".data := by rfl

/-- Parse error of the modelled json.loads: a message and the length of
the remaining input at the failure, from which the absolute character
position is recovered as total length minus remaining. -/
structure PErr where
  msg : List Char
  remaining : Nat
deriving DecidableEq, Repr

/-- Value of one hexadecimal digit, either case, as the strict scanner
of the json module accepts in a u-escape. -/
def hexVal? (c : Char) : Option Nat :=
  if '0' ≤ c && c ≤ '9' then some (c.toNat - 48)
  else if 'a' ≤ c && c ≤ 'f' then some (c.toNat - 87)
  else if 'A' ≤ c && c ≤ 'F' then some (c.toNat - 55)
  else none

/-- Value of a four-digit hexadecimal escape. -/
def parseHex4 (a b c d : Char) : Option Nat :=
  match hexVal? a, hexVal? b, hexVal? c, hexVal? d with
  | some x, some y, some z, some w => some (((x * 16 + y) * 16 + z) * 16 + w)
  | _, _, _, _ => none

/-- Decoding of a single-character escape inside a JSON string. -/
def escDecode (e : Char) : Option Char :=
  if e = '"' then some '"'
  else if e = '\\' then some '\\'
  else if e = '/' then some '/'
  else if e = 'b' then some '\x08'
  else if e = 'f' then some '\x0c'
  else if e = 'n' then some '\n'
  else if e = 'r' then some '\r'
  else if e = 't' then some '\t'
  else none

/-- Strict JSON string scanner, entered just after the opening quote;
beginRem is the remaining length at that quote, used for the
unterminated-string error position.  Literal characters below code
point 32 are rejected, escapes are decoded, and surrogate pairs are
combined; a lone surrogate escape (which Python would keep as a lone
surrogate code unit) has no Lean Char counterpart and is rejected as
outside the modelled fragment. -/
def parseStr (beginRem : Nat) : List Char → Except PErr (List Char × List Char)
  | [] => .error ⟨"Unterminated string starting at".data, beginRem⟩
  | '"' :: rest => .ok ([], rest)
  | '\\' :: 'u' :: h1 :: h2 :: h3 :: h4 :: rest =>
      (match parseHex4 h1 h2 h3 h4 with
       | none => .error ⟨"Invalid u-escape".data, rest.length + 4⟩
       | some n =>
         if 0xD800 ≤ n && n ≤ 0xDBFF then
           match rest with
           | '\\' :: 'u' :: g1 :: g2 :: g3 :: g4 :: rest2 =>
             (match parseHex4 g1 g2 g3 g4 with
              | some m =>
                if 0xDC00 ≤ m && m ≤ 0xDFFF then
                  match parseStr beginRem rest2 with
                  | .ok (s, r) =>
                      .ok (Char.ofNat (0x10000 + (n - 0xD800) * 0x400 + (m - 0xDC00)) :: s, r)
                  | .error e => .error e
                else .error ⟨"Lone surrogate escape outside the modelled fragment".data, rest2.length + 12⟩
              | none => .error ⟨"Invalid u-escape".data, rest2.length + 4⟩)
           | _ => .error ⟨"Lone surrogate escape outside the modelled fragment".data, rest.length + 6⟩
         else if 0xDC00 ≤ n && n ≤ 0xDFFF then
           .error ⟨"Lone surrogate escape outside the modelled fragment".data, rest.length + 6⟩
         else
           match parseStr beginRem rest with
           | .ok (s, r) => .ok (Char.ofNat n :: s, r)
           | .error e => .error e)
  | '\\' :: e :: rest =>
      (match escDecode e with
       | some c =>
         (match parseStr beginRem rest with
          | .ok (s, r) => .ok (c :: s, r)
          | .error e2 => .error e2)
       | none => .error ⟨"Invalid escape".data, rest.length + 2⟩)
  | c :: rest =>
      if c.toNat < 32 then .error ⟨"Invalid control character at".data, rest.length + 1⟩
      else
        match parseStr beginRem rest with
        | .ok (s, r) => .ok (c :: s, r)
        | .error e => .error e

/-- The JSON whitespace skipped by json.loads: space, tab, newline and
carriage return. -/
def skipWs : List Char → List Char
  | [] => []
  | c :: rest =>
      if c = ' ' || c = '\t' || c = '\n' || c = '\r' then skipWs rest
      else c :: rest

/-- Maximal run of decimal digits and the remaining input. -/
def takeDigits : List Char → List Char × List Char
  | [] => ([], [])
  | c :: rest =>
      if c.isDigit then
        let r := takeDigits rest
        (c :: r.1, r.2)
      else ([], c :: rest)

/-- Numeric value of a digit string, most significant first. -/
def digitsToNat (l : List Char) : Nat :=
  l.foldl (fun a c => a * 10 + (c.toNat - 48)) 0

/-- The integer part of the json number token: a zero, or a nonzero
digit followed by further digits (leading zeros are not absorbed,
exactly as the number regex of the json module). -/
def parseNatTok : List Char → Option (Nat × List Char)
  | [] => none
  | '0' :: rest => some (0, rest)
  | c :: rest =>
      if c.isDigit then
        let r := takeDigits rest
        some (digitsToNat (c :: r.1), r.2)
      else none

/-- Integer number parsing: an optional minus sign and an integer
token.  A following fraction or exponent, which Python would turn into
a float, is outside the modelled fragment and is left unconsumed. -/
def parseNum : List Char → Except PErr (Int × List Char)
  | '-' :: rest =>
      (match parseNatTok rest with
       | some (n, r) => .ok (-(n : Int), r)
       | none => .error ⟨"Expecting value".data, rest.length + 1⟩)
  | cs =>
      match parseNatTok cs with
      | some (n, r) => .ok ((n : Int), r)
      | none => .error ⟨"Expecting value".data, cs.length⟩

/-- Insertion into an object with dict semantics: an existing key keeps
its position and takes the new value, a new key is appended. -/
def objUpd : JObj → List Char → JVal → JObj
  | .nil, k, v => .cons k v .nil
  | .cons k0 v0 tl, k, v =>
      if k0 = k then .cons k0 v tl else .cons k0 v0 (objUpd tl k v)

mutual
/-- Recursive-descent value parser of the modelled json.loads, on
explicit fuel; any fuel exceeding the remaining length is enough, and
the wrapper loads supplies length plus one.  Expects its input to start
at the value (callers skip whitespace first). -/
def parseVal : Nat → List Char → Except PErr (JVal × List Char)
  | 0, cs => .error ⟨"parser fuel exhausted".data, cs.length⟩
  | f + 1, cs =>
    match cs with
    | '\x7b' :: rest =>
        (match skipWs rest with
         | '\x7d' :: r2 => .ok (.obj .nil, r2)
         | r1 =>
           match parseMembers f .nil r1 with
           | .ok (ps, r) => .ok (.obj ps, r)
           | .error e => .error e)
    | '[' :: rest =>
        (match skipWs rest with
         | ']' :: r2 => .ok (.arr .nil, r2)
         | r1 =>
           match parseElems f r1 with
           | .ok (es, r) => .ok (.arr es, r)
           | .error e => .error e)
    | '"' :: rest =>
        (match parseStr (rest.length + 1) rest with
         | .ok (s, r) => .ok (.str s, r)
         | .error e => .error e)
    | 't' :: 'r' :: 'u' :: 'e' :: rest => .ok (.bool true, rest)
    | 'f' :: 'a' :: 'l' :: 's' :: 'e' :: rest => .ok (.bool false, rest)
    | 'n' :: 'u' :: 'l' :: 'l' :: rest => .ok (.null, rest)
    | cs' =>
        match parseNum cs' with
        | .ok (i, r) => .ok (.num i, r)
        | .error e => .error e
/-- Array elements after the opening bracket and whitespace, for a
non-empty array. -/
def parseElems : Nat → List Char → Except PErr (JArr × List Char)
  | 0, cs => .error ⟨"parser fuel exhausted".data, cs.length⟩
  | f + 1, cs =>
    match parseVal f cs with
    | .error e => .error e
    | .ok (v, r1) =>
      match skipWs r1 with
      | ',' :: r2 =>
          (match parseElems f (skipWs r2) with
           | .ok (es, r3) => .ok (.cons v es, r3)
           | .error e => .error e)
      | ']' :: r2 => .ok (.cons v .nil, r2)
      | r2 => .error ⟨"Expecting comma delimiter".data, r2.length⟩
/-- Object members after the opening brace and whitespace, for a
non-empty object, folded into the accumulator with dict update
semantics. -/
def parseMembers : Nat → JObj → List Char → Except PErr (JObj × List Char)
  | 0, _, cs => .error ⟨"parser fuel exhausted".data, cs.length⟩
  | f + 1, acc, cs =>
    match cs with
    | '"' :: rest =>
      (match parseStr (rest.length + 1) rest with
       | .error e => .error e
       | .ok (k, r1) =>
         match skipWs r1 with
         | ':' :: r2 =>
           (match parseVal f (skipWs r2) with
            | .error e => .error e
            | .ok (v, r3) =>
              match skipWs r3 with
              | ',' :: r4 => parseMembers f (objUpd acc k v) (skipWs r4)
              | '\x7d' :: r4 => .ok (objUpd acc k v, r4)
              | r4 => .error ⟨"Expecting comma delimiter".data, r4.length⟩)
         | r2 => .error ⟨"Expecting colon delimiter".data, r2.length⟩)
    | _ => .error ⟨"Expecting property name enclosed in double quotes".data, cs.length⟩
end

/-- The modelled json.loads: skip leading whitespace, parse one value,
skip trailing whitespace, and reject any extra data. -/
def loads (cs : List Char) : Except PErr JVal :=
  match parseVal (cs.length + 1) (skipWs cs) with
  | .error e => .error e
  | .ok (v, r) =>
    match skipWs r with
    | [] => .ok v
    | r2 => .error ⟨"Extra data".data, r2.length⟩

/-- The positional failure report of clean_json_content (lines 93 to
102 of the source): one-based line and column in the cleaned text, the
error message, and the literal text of the offending line. -/
structure Diagnostic where
  line : Nat
  column : Nat
  message : List Char
  contextLine : List Char
deriving DecidableEq, Repr

/-- Model of the Python str.split on a newline: keeps empty segments
and yields one segment even for empty input. -/
def splitOnNl : List Char → List (List Char)
  | [] => [[]]
  | '\n' :: rest => [] :: splitOnNl rest
  | c :: rest =>
      match splitOnNl rest with
      | [] => [[c]]
      | l :: ls => (c :: l) :: ls

/-- Builds the diagnostic exactly as the except branch of
clean_json_content: the line number counts newlines before the error
position plus one, the column counts characters since the last newline
plus one (both as the JSONDecodeError constructor computes them), and
the context is the line at that index of the newline split of the
cleaned text, with the fallback string when the index is out of
range. -/
def mkDiag (cleaned : List Char) (e : PErr) : Diagnostic :=
  let pos := cleaned.length - e.remaining
  let pre := cleaned.take pos
  let lineno := pre.count '\n' + 1
  let colno := (pre.reverse.takeWhile (fun c => c != '\n')).length + 1
  let lines := splitOnNl cleaned
  { line := lineno, column := colno, message := e.msg,
    contextLine := if lineno ≤ lines.length then lines.getD (lineno - 1) [] else "Line not found".data }

/-- The function clean_json_content of the source: preprocess, clean
comments and commas, and parse; on failure, report the diagnostic. -/
def clean_json_content (s : List Char) : Except Diagnostic JVal :=
  match loads (cleanedText s) with
  | .ok v => .ok v
  | .error e => .error (mkDiag (cleanedText s) e)

/-- The full normalization of one file as process_json_file performs
it: clean and parse, then re-emit with json.dump at indent 2.  This is
the operation the specification names normalize. -/
def normalize (s : List Char) : Except Diagnostic (List Char) :=
  match clean_json_content s with
  | .ok v => .ok (dumps v)
  | .error d => .error d

example : loads "\x7b\"a\": 1\x7d".data = .ok (.obj (.cons "a".data (.num 1) .nil)) := by rfl
example : normalize "\x7b\"a\": 1, // c\n\"b\": 2,\x7d".data
    = .ok "\x7b\n  \"a\": 1,\n  \"b\": 2\n\x7d".data := by rfl
example : normalize "\x7b\"url\": \"http://example.com\"\x7d".data
    = .ok "\x7b\n  \"url\": \"http://example.com\"\n\x7d".data := by rfl


/-- Variant of scanLines that follows the words of the specification
for the line-comment pass, resetting the escape flag at the start of
every line while carrying the in-string flag; for comparison with the
scanLines of the source, which resets neither. -/
def scanLinesReset : LCState → List (List Char) → List (List Char) × LCState
  | st, [] => ([], st)
  | st, l :: ls =>
      let r := scanLine ⟨st.inString, false⟩ l
      let rs := scanLinesReset r.2 ls
      (r.1 :: rs.1, rs.2)

/-- The line-comment pass as the specification words it, with the
per-line escape reset. -/
def linePassResetSpec (s : List Char) : List Char :=
  nlJoin (scanLinesReset ⟨false, false⟩ (pySplitlines s)).1

/-- Evolution of the escape flag alone, as a fold over the characters:
a backslash sets it when it is clear, and any character clears it when
it is set, with no reference to the string or comment context. -/
def escSpec : Bool → List Char → Bool
  | e, [] => e
  | e, c :: rest => escSpec (!e && c = '\\') rest

/-- Length of the maximal run of backslashes at the end of the text. -/
def trailingBackslashes (s : List Char) : Nat :=
  (s.reverse.takeWhile (fun c => c == '\\')).length

/-- Detector for a comma followed only by regex whitespace and then a
closing brace or bracket, anywhere in the text. -/
def hasTrailingComma : List Char → Bool
  | [] => false
  | c :: rest => (decide (c = ',') && matchWB rest) || hasTrailingComma rest

/-- After-comma lookahead for a chained comma: regex whitespace and
then another comma. -/
def chainAfter : List Char → Bool
  | [] => false
  | c :: rest => if pySpace c then chainAfter rest else decide (c = ',')

/-- Detector for two commas separated only by regex whitespace. -/
def commaChain : List Char → Bool
  | [] => false
  | c :: rest => (decide (c = ',') && chainAfter rest) || commaChain rest

/-- Detector for a star immediately followed by a slash. -/
def hasStarSlash : List Char → Bool
  | '*' :: '/' :: _ => true
  | _ :: rest => hasStarSlash rest
  | [] => false

theorem escSpec_append (s t : List Char) : ∀ e, escSpec e (s ++ t) = escSpec (escSpec e s) t := by
  induction s with
  | nil => intro e; rfl
  | cons c s ih => intro e; simp only [List.cons_append, escSpec]; exact ih _

theorem trailingBackslashes_concat (s : List Char) (c : Char) :
    trailingBackslashes (s ++ [c]) =
      if c = '\\' then trailingBackslashes s + 1 else 0 := by
  by_cases h : c = '\\' <;>
    simp [trailingBackslashes, h, List.takeWhile]

theorem escSpec_false_parity (s : List Char) :
    escSpec false s = decide (trailingBackslashes s % 2 = 1) := by
  induction s using List.reverseRecOn with
  | nil => simp [escSpec, trailingBackslashes]
  | append_singleton s c ih =>
      rw [escSpec_append, trailingBackslashes_concat]
      by_cases h : c = '\\'
      · subst h
        simp only [escSpec, if_pos rfl, ih]
        rcases Nat.even_or_odd (trailingBackslashes s) with he | ho
        · have h1 : trailingBackslashes s % 2 = 0 := Nat.even_iff.mp he
          have h2 : (trailingBackslashes s + 1) % 2 = 1 := by omega
          simp [h1, h2]
        · have h1 : trailingBackslashes s % 2 = 1 := Nat.odd_iff.mp ho
          have h2 : (trailingBackslashes s + 1) % 2 = 0 := by omega
          simp [h1, h2]
      · simp [escSpec, h]

theorem scanBlock_esc : ∀ st s, (scanBlock st s).2.escNext = escSpec st.escNext s := by
  intro st s
  induction st, s using scanBlock.induct <;>
    simp_all [scanBlock, escSpec] <;>
    (split_ifs <;> simp_all)


theorem scanLine_esc : ∀ st l, (∀ c ∈ l, c ≠ '/') →
    (scanLine st l).2.escNext = escSpec st.escNext l := by
  intro st l h
  induction st, l using scanLine.induct <;>
    simp_all [scanLine, escSpec]

/-- C6, corrected content.  First part: during the block-comment scan
the escape flag evolves exactly as the context-free fold escSpec, so it
is set by a backslash irrespective of the in-string or in-comment
context.  Second part: likewise for the line scan on any line without
slashes (a line comment would stop the scan early).  Third part: from a
clear flag, the fold leaves the flag set exactly when the text ends in
an odd run of backslashes, so the flag is reset as every further
character is consumed. -/
theorem C6_amended :
    (∀ st s, (scanBlock st s).2.escNext = escSpec st.escNext s) ∧
    (∀ st l, (∀ c ∈ l, c ≠ '/') → (scanLine st l).2.escNext = escSpec st.escNext l) ∧
    (∀ s, escSpec false s = decide (trailingBackslashes s % 2 = 1)) :=
  ⟨scanBlock_esc, scanLine_esc, escSpec_false_parity⟩

/-- C6 witness: the second part applied to a concrete line. -/
theorem C6_amended_witness :
    (scanLine ⟨false, false⟩ ['a', '\\']).2.escNext = escSpec false ['a', '\\'] :=
  C6_amended.2.1 ⟨false, false⟩ ['a', '\\'] (by decide)

/-- C6 counterexample: after a backslash outside any string the escape
flag is set (line scan), and it is likewise set after a backslash
inside a block comment (block scan), refuting the claim that it is true
only following a backslash inside a string. -/
theorem C6_counterexample :
    (scanLine ⟨false, false⟩ ['\\']).2 = ⟨false, true⟩ ∧
    (scanBlock ⟨false, false, true⟩ ['\\']).2 = ⟨false, true, true⟩ :=
  ⟨rfl, rfl⟩

theorem scanLines_append (ls1 ls2 : List (List Char)) : ∀ st,
    scanLines st (ls1 ++ ls2) =
      ((scanLines st ls1).1 ++ (scanLines (scanLines st ls1).2 ls2).1,
       (scanLines (scanLines st ls1).2 ls2).2) := by
  induction ls1 with
  | nil => intro st; rfl
  | cons l ls ih => intro st; simp [scanLines, ih]

/-- C3, corrected content.  The scan state that enters any block of
later lines is the full final state of the earlier lines, both flags
included: the escape flag is carried across the line boundary exactly
like the in-string flag, not reset.  On the concrete input of one
backslash line followed by a comment line this differs observably from
the per-line-reset behaviour the claim describes. -/
theorem C3_amended :
    (∀ st ls1 ls2,
      scanLines st (ls1 ++ ls2) =
        ((scanLines st ls1).1 ++ (scanLines (scanLines st ls1).2 ls2).1,
         (scanLines (scanLines st ls1).2 ls2).2)) ∧
    linePass "\\\n//".data ≠ linePassResetSpec "\\\n//".data :=
  ⟨fun st ls1 ls2 => scanLines_append ls1 ls2 st, by decide⟩

/-- C3 counterexample: after the line consisting of one backslash the
carried state has the escape flag set, so scanning of the next line
starts with the flag set, not clear; consequently the comment line that
follows is not stripped, while the per-line-reset scan of the
specification strips it. -/
theorem C3_counterexample :
    (scanLines ⟨false, false⟩ [['\\']]).2.escNext = true ∧
    linePass "\\\n//".data = "\\\n//".data ∧
    linePassResetSpec "\\\n//".data = "\\\n".data :=
  ⟨rfl, rfl, rfl⟩

/-- C9 counterexample: an input of two byte-order marks keeps one; the
text handed on still carries a byte-order mark. -/
theorem C9_counterexample :
    preprocess "\uFEFF\uFEFF".data = ['\uFEFF'] ∧
    '\uFEFF' ∈ preprocess "\uFEFF\uFEFF".data :=
  ⟨rfl, by decide⟩

/-- C9, corrected content: every character of the preprocessed text is
at code point 32 or above or one of newline, carriage return, tab; no
null byte survives; but only the single leading byte-order mark is
removed, and any byte-order mark in the tail of the input survives
preprocessing. -/
theorem C9_amended :
    (∀ s c, c ∈ preprocess s → (32 ≤ c.toNat ∨ c = '\n' ∨ c = '\r' ∨ c = '\t')) ∧
    (∀ s, '\x00' ∉ preprocess s) ∧
    (∀ s, '\uFEFF' ∈ s.tail → '\uFEFF' ∈ preprocess s) := by
  refine ⟨?_, ?_, ?_⟩
  · intro s c hc
    simp only [preprocess, List.mem_filter] at hc
    rcases hc with ⟨-, h⟩
    simp only [Bool.or_eq_true, decide_eq_true_eq, beq_iff_eq] at h
    tauto
  · intro s h
    simp only [preprocess, List.mem_filter] at h
    rcases h with ⟨⟨-, h⟩, -⟩
    simp at h
  · intro s h
    have h1 : '\uFEFF' ∈ (if s.head? = some '\uFEFF' then s.tail else s) := by
      split
      · exact h
      · exact List.mem_of_mem_tail h
    simp only [preprocess, List.mem_filter]
    refine ⟨⟨h1, by decide⟩, by decide⟩

/-- C9 witness: the amended properties applied to a concrete input with
an interior byte-order mark. -/
theorem C9_amended_witness :
    ('\uFEFF' ∈ preprocess "a\uFEFFb".data) ∧
    ('\x00' ∉ preprocess "a\x00b".data) :=
  ⟨C9_amended.2.2 "a\uFEFFb".data (by decide), C9_amended.2.1 "a\x00b".data⟩


theorem scanBlock_comment_body (mid : List Char) :
    ∀ st rest, st.inComment = true → st.escNext = false →
    (∀ c ∈ mid, c ≠ '\\' ∧ c ≠ '/') →
    scanBlock st (mid ++ '*' :: '/' :: rest) =
      scanBlock ⟨st.inString, false, false⟩ rest := by
  induction mid with
  | nil =>
      intro st rest hc he _
      obtain ⟨i1, e1, c1⟩ := st
      simp only at hc he
      subst hc he
      simp [scanBlock]
  | cons m mid ih =>
      intro st rest hc he hm
      obtain ⟨hm1, hm2⟩ := hm m (List.mem_cons_self m mid)
      have hmid : ∀ c ∈ mid, c ≠ '\\' ∧ c ≠ '/' :=
        fun c hcm => hm c (List.mem_cons_of_mem m hcm)
      obtain ⟨i1, e1, c1⟩ := st
      simp only at hc he
      subst hc he
      have key : scanBlock ⟨i1, false, true⟩ (m :: (mid ++ '*' :: '/' :: rest)) =
          scanBlock ⟨i1, false, true⟩ (mid ++ '*' :: '/' :: rest) := by
        cases mid with
        | nil =>
            simp only [List.nil_append]
            rw [scanBlock]
            split_ifs <;> simp_all
        | cons m2 mid2 =>
            have h2 : m2 ≠ '/' := (hmid m2 (List.mem_cons_self m2 mid2)).2
            simp only [List.cons_append]
            rw [scanBlock]
            split_ifs <;> simp_all
      rw [List.cons_append, key]
      exact ih ⟨i1, false, true⟩ rest rfl rfl hmid


/-- C2, corrected content: from a clear state, an unquoted slash-star
followed by a comment body that contains neither a backslash nor a
slash is discarded together with the first following star-slash, and
scanning continues after it in a clear state — so for such bodies the
comment does end exactly at the first star-slash.  The restriction on
the body is necessary: a backslash inside the comment escape-consumes
the following character and a slash before a star re-opens the
comment, either of which skips a terminator, as the counterexample
shows. -/
theorem C2_amended : ∀ mid st rest,
    (∀ c ∈ mid, c ≠ '\\' ∧ c ≠ '/') →
    st = ⟨false, false, false⟩ →
    scanBlock st ('/' :: '*' :: (mid ++ '*' :: '/' :: rest)) = scanBlock st rest := by
  intro mid st rest hm hst
  subst hst
  have h1 : scanBlock ⟨false, false, false⟩ ('/' :: '*' :: (mid ++ '*' :: '/' :: rest)) =
      scanBlock ⟨false, false, true⟩ (mid ++ '*' :: '/' :: rest) := by
    rw [scanBlock]
    split_ifs <;> simp_all
  rw [h1, scanBlock_comment_body mid ⟨false, false, true⟩ rest rfl rfl hm]

/-- C2 witness: the amended statement applied to a concrete comment
with body of one letter, checking the comment is dropped and scanning
resumes at the terminator. -/
theorem C2_amended_witness :
    scanBlock ⟨false, false, false⟩ "/*a*/x".data = scanBlock ⟨false, false, false⟩ "x".data :=
  C2_amended ['a'] ⟨false, false, false⟩ "x".data (by decide) rfl

/-- C2 counterexample: in the input slash star backslash star slash x,
the star-slash at offsets three and four lies inside the open comment
but is skipped over, because the backslash sets the escape flag and the
star is consumed by it; the scan discards the whole input including the
trailing x and ends still inside the comment, where ending the comment
at that star-slash would keep x. -/
theorem C2_counterexample :
    blockPass "/*\\*/x".data = [] ∧
    (scanBlock ⟨false, false, false⟩ "/*\\*/x".data).2.inComment = true ∧
    "/*\\*/x".data = ['/', '*', '\\', '*', '/', 'x'] :=
  ⟨rfl, rfl, rfl⟩


theorem pySpace_ne_comma {c : Char} (h : pySpace c = true) : c ≠ ',' := by
  intro he
  subst he
  exact absurd h (by decide)

theorem commaSub_ws_append {w : List Char} (hw : ∀ c ∈ w, pySpace c = true) (m : List Char) :
    commaSub (w ++ m) = w ++ commaSub m := by
  induction w with
  | nil => rfl
  | cons c w ih =>
      have hc : c ≠ ',' := pySpace_ne_comma (hw c (List.mem_cons_self c w))
      simp only [List.cons_append, commaSub, hc, decide_False, Bool.false_and,
        Bool.false_eq_true, if_false, List.append_eq]
      rw [ih (fun c h => hw c (List.mem_cons_of_mem _ h))]

theorem matchWB_ws_append {w : List Char} (hw : ∀ c ∈ w, pySpace c = true) (m : List Char) :
    matchWB (w ++ m) = matchWB m := by
  induction w with
  | nil => rfl
  | cons c w ih =>
      have hc : pySpace c = true := hw c (List.mem_cons_self c w)
      simp only [List.cons_append, matchWB, hc, if_true]
      exact ih (fun c h => hw c (List.mem_cons_of_mem _ h))

theorem chainAfter_ws_append {w : List Char} (hw : ∀ c ∈ w, pySpace c = true) (m : List Char) :
    chainAfter (w ++ m) = chainAfter m := by
  induction w with
  | nil => rfl
  | cons c w ih =>
      have hc : pySpace c = true := hw c (List.mem_cons_self c w)
      simp only [List.cons_append, chainAfter, hc, if_true]
      exact ih (fun c h => hw c (List.mem_cons_of_mem _ h))

theorem commaSub_ws_id {w : List Char} (hw : ∀ c ∈ w, pySpace c = true) :
    commaSub w = w := by
  have h := commaSub_ws_append hw []
  rw [List.append_nil] at h
  rw [h]
  show w ++ commaSub [] = w
  rw [show commaSub [] = [] from rfl, List.append_nil]

theorem matchWB_ws_id {w : List Char} (hw : ∀ c ∈ w, pySpace c = true) :
    matchWB w = false := by
  have := matchWB_ws_append hw []
  simpa using this

theorem hasTC_cons_not_comma {c : Char} (h : c ≠ ',') (m : List Char) :
    hasTrailingComma (c :: m) = hasTrailingComma m := by
  simp [hasTrailingComma, h]

theorem hasTC_ws_append {w : List Char} (hw : ∀ c ∈ w, pySpace c = true) (m : List Char) :
    hasTrailingComma (w ++ m) = hasTrailingComma m := by
  induction w with
  | nil => rfl
  | cons c w ih =>
      rw [List.cons_append,
        hasTC_cons_not_comma (pySpace_ne_comma (hw c (List.mem_cons_self c w)))]
      exact ih (fun c h => hw c (List.mem_cons_of_mem _ h))

/-- C4 counterexample: on the input comma comma bracket the single pass
removes only the second comma and the output still contains a comma
followed directly by a closing bracket. -/
theorem C4_counterexample :
    commaSub ",,]".data = ",]".data ∧
    hasTrailingComma (commaSub ",,]".data) = true :=
  ⟨rfl, rfl⟩

/-- C4, corrected content: the single pass leaves no comma followed
only by whitespace and a closing brace or bracket, provided the input
has no two commas separated only by whitespace.  Without that proviso
matches can chain, as in the counterexample, and a residual occurrence
survives the single pass. -/
theorem C4_amended : ∀ s, commaChain s = false →
    hasTrailingComma (commaSub s) = false := by
  intro s
  induction s with
  | nil => intro _; rfl
  | cons c rest ih =>
      intro h
      have hrest : commaChain rest = false := by
        rw [commaChain, Bool.or_eq_false_iff] at h
        exact h.2
      by_cases hc : c = ','
      · subst hc
        have hca : chainAfter rest = false := by
          rw [commaChain, Bool.or_eq_false_iff, Bool.and_eq_false_iff] at h
          rcases h.1 with h1 | h1
          · exact absurd h1 (by simp)
          · exact h1
        by_cases hm : matchWB rest = true
        · simp only [commaSub, hm, decide_True, Bool.true_and, if_true]
          exact ih hrest
        · have hm' : matchWB rest = false := eq_false_of_ne_true hm
          simp only [commaSub, hm', decide_True, Bool.true_and, Bool.false_eq_true, if_false]
          rw [hasTrailingComma]
          have hsplit := List.takeWhile_append_dropWhile (p := pySpace) (l := rest)
          have hwTake : ∀ x ∈ rest.takeWhile pySpace, pySpace x = true :=
            fun x hx => List.mem_takeWhile_imp hx
          have hmatch : matchWB (commaSub rest) = false := by
            cases hdrop : rest.dropWhile pySpace with
            | nil =>
                rw [← hsplit, hdrop, List.append_nil, commaSub_ws_id hwTake,
                  matchWB_ws_id hwTake]
            | cons d t =>
                have hd : pySpace d = false := by
                  have := List.head?_dropWhile_not pySpace rest
                  rw [hdrop] at this
                  simpa using this
                have hdm : matchWB (d :: t) = false := by
                  rw [← hsplit, hdrop, matchWB_ws_append hwTake] at hm'
                  exact hm'
                have hdc : d ≠ ',' := by
                  rw [← hsplit, hdrop, chainAfter_ws_append hwTake, chainAfter, hd] at hca
                  simpa using hca
                rw [← hsplit, hdrop, commaSub_ws_append hwTake, commaSub]
                have : (decide (d = ',') && matchWB t) = false := by
                  simp [hdc]
                rw [this, if_neg (by simp), matchWB_ws_append hwTake, matchWB, hd]
                rw [matchWB, hd] at hdm
                exact hdm
          rw [hmatch]
          simp only [decide_True, Bool.true_and, Bool.false_or]
          exact ih hrest
      · simp only [commaSub, hc, decide_False, Bool.false_and, Bool.false_eq_true, if_false]
        rw [hasTC_cons_not_comma hc]
        exact ih hrest

/-- C4 witness: the amended statement applied to a concrete cleaned
text with one trailing comma and no chained commas. -/
theorem C4_amended_witness :
    hasTrailingComma (commaSub "[1, ]".data) = false :=
  C4_amended "[1, ]".data (by decide)


theorem hasStarSlash_tail : ∀ (c : Char) (l : List Char),
    hasStarSlash (c :: l) = false → hasStarSlash l = false := by
  intro c l h
  rw [hasStarSlash.eq_def] at h
  split at h
  · exact absurd h (by simp)
  · rename_i heq
    injection heq with h1 h2
    exact h2 ▸ h
  · simp_all

theorem scanBlock_unterminated : ∀ st mid, st.inComment = true → hasStarSlash mid = false →
    (scanBlock st mid).1 = [] ∧ (scanBlock st mid).2.inComment = true := by
  intro st mid
  induction st, mid using scanBlock.induct <;> intro hc hs <;>
    simp_all [scanBlock] <;>
    (try split_ifs) <;>
    (try simp_all) <;>
    (first
      | (apply_assumption; exact hasStarSlash_tail _ _ hs)
      | (apply_assumption; exact hasStarSlash_tail _ _ (hasStarSlash_tail _ _ hs))
      | (exact absurd hs (by simp [hasStarSlash]))
      | skip)


/-- C7: the cleaning stages are total functions by construction, and
the two provable contents of the claim.  First: any failure of
normalize is exactly a validation failure, the diagnostic built from
the parse error on the cleaned text — no other stage produces an
error.  Second: when the end of input is reached with the comment flag
set and no star-slash remains, the block scan discards the whole
remainder, produces no output from it, raises nothing, and is still in
the comment at the end. -/
theorem C7 :
    (∀ s d, normalize s = .error d →
        ∃ e, loads (cleanedText s) = .error e ∧ d = mkDiag (cleanedText s) e) ∧
    (∀ st mid, st.inComment = true → hasStarSlash mid = false →
        (scanBlock st mid).1 = [] ∧ (scanBlock st mid).2.inComment = true) := by
  constructor
  · intro s d h
    unfold normalize clean_json_content at h
    cases heq : loads (cleanedText s) with
    | ok v => rw [heq] at h; exact absurd h (by simp)
    | error e =>
        rw [heq] at h
        simp only [Except.error.injEq] at h
        exact ⟨e, rfl, h.symm⟩
  · exact scanBlock_unterminated

/-- C7 witness: the failure half applied to a malformed input, and the
discard half applied to a concrete unterminated comment body. -/
theorem C7_witness :
    (∃ e, loads (cleanedText "x".data) = .error e ∧
        mkDiag (cleanedText "x".data) ⟨"Expecting value".data, 1⟩ = mkDiag (cleanedText "x".data) e) ∧
    ((scanBlock ⟨false, false, true⟩ "abc".data).1 = [] ∧
        (scanBlock ⟨false, false, true⟩ "abc".data).2.inComment = true) := by
  constructor
  · have h := C7.1 "x".data (mkDiag (cleanedText "x".data) ⟨"Expecting value".data, 1⟩) rfl
    obtain ⟨e, he, hd⟩ := h
    exact ⟨e, he, hd⟩
  · exact C7.2 ⟨false, false, true⟩ "abc".data rfl rfl

theorem splitOnNl_ne_nil (s : List Char) : splitOnNl s ≠ [] := by
  induction s with
  | nil => simp [splitOnNl]
  | cons c rest ih =>
      by_cases hc : c = '\n'
      · subst hc; simp [splitOnNl]
      · rw [splitOnNl.eq_def]
        split <;> simp_all
        split <;> simp_all

theorem splitOnNl_length (s : List Char) :
    (splitOnNl s).length = s.count '\n' + 1 := by
  induction s with
  | nil => rfl
  | cons c rest ih =>
      by_cases hc : c = '\n'
      · subst hc
        simp [splitOnNl, List.count_cons, ih]
      · rw [splitOnNl.eq_def]
        split
        · simp_all
        · simp_all
        · rename_i c' rest' hne heq
          injection heq with h1 h2
          subst h1 h2
          cases hsp : splitOnNl rest with
          | nil => exact absurd hsp (splitOnNl_ne_nil rest)
          | cons l ls =>
              rw [hsp] at ih
              simp only [List.length_cons] at ih
              simp [List.count_cons, hc, ← ih, hsp]

/-- C8, confirmed.  Concrete part: on the malformed input open brace,
quoted a, colon, space, close brace, normalization fails with message
Expecting value at line one column seven of the cleaned text, the
context line is that literal text, and the character at the one-based
column is exactly the closing brace.  General part: every failure
diagnostic has one-based line and column, the line number is within
the newline split of the cleaned text, and the context line is the
literal line at that index of the cleaned text. -/
theorem C8 :
    (normalize "\x7b\"a\": \x7d".data =
        .error ⟨1, 7, "Expecting value".data, "\x7b\"a\": \x7d".data⟩ ∧
      "\x7b\"a\": \x7d".data.getD (7 - 1) ' ' = '\x7d') ∧
    (∀ s d, normalize s = .error d →
      1 ≤ d.line ∧ 1 ≤ d.column ∧ d.line ≤ (splitOnNl (cleanedText s)).length ∧
      d.contextLine = (splitOnNl (cleanedText s)).getD (d.line - 1) []) := by
  constructor
  · exact ⟨rfl, rfl⟩
  · intro s d h
    obtain ⟨e, -, hd⟩ := C7.1 s d h
    subst hd
    have hline : (cleanedText s).length - e.remaining ≤ (cleanedText s).length :=
      Nat.sub_le _ _
    have hcount : ((cleanedText s).take ((cleanedText s).length - e.remaining)).count '\n'
        ≤ (cleanedText s).count '\n' :=
      List.Sublist.count_le (List.take_sublist _ _) '\n'
    have hlen : ((cleanedText s).take ((cleanedText s).length - e.remaining)).count '\n' + 1
        ≤ (splitOnNl (cleanedText s)).length := by
      rw [splitOnNl_length]
      omega
    refine ⟨by simp [mkDiag], by simp [mkDiag], ?_, ?_⟩
    · simpa [mkDiag] using hlen
    · simp only [mkDiag]
      rw [if_pos hlen]

/-- C8 witness: the general part applied to a concrete failing
input. -/
theorem C8_witness :
    (1 ≤ (1 : Nat)) ∧
    ((mkDiag (cleanedText "x".data) ⟨"Expecting value".data, 1⟩).contextLine =
      (splitOnNl (cleanedText "x".data)).getD
        ((mkDiag (cleanedText "x".data) ⟨"Expecting value".data, 1⟩).line - 1) []) := by
  have h := C8.2 "x".data (mkDiag (cleanedText "x".data) ⟨"Expecting value".data, 1⟩) rfl
  exact ⟨h.1, h.2.2.2⟩


/-- C5 counterexample: the input object whose single string value is
the text a comma space close-brace slash slash normalizes successfully,
but the comma pass deletes the comma inside the string literal: the
parsed result holds a different string, although the original string
value literally contains two slashes. -/
theorem C5_counterexample :
    normalize "\x7b\"k\": \"a, \x7d//\"\x7d".data =
      .ok "\x7b\n  \"k\": \"a \x7d//\"\n\x7d".data ∧
    clean_json_content "\x7b\"k\": \"a, \x7d//\"\x7d".data =
      .ok (.obj (.cons "k".data (.str "a \x7d//".data) .nil)) ∧
    "a \x7d//".data ≠ "a, \x7d//".data :=
  ⟨rfl, rfl, by decide⟩

/-- C5, corrected content.  First: the concrete example of the claim
does hold — a url with two slashes inside a string survives
normalization structurally unchanged.  Then the comment scanners are
string-safe by construction: with the in-string flag set, the line
scanner copies a slash instead of discarding the rest of the line, and
the block scanner copies a slash and a star instead of opening a
comment.  What fails in general is the comma pass, which is not
string-aware, as the counterexample shows; preservation therefore
excludes strings containing a comma followed by whitespace and a
closing brace or bracket. -/
theorem C5_amended :
    (normalize "\x7b\"url\": \"http://example.com\"\x7d".data
        = .ok "\x7b\n  \"url\": \"http://example.com\"\n\x7d".data) ∧
    (∀ st rest, st.inString = true → st.escNext = false →
        scanLine st ('/' :: rest) = ('/' :: (scanLine st rest).1, (scanLine st rest).2)) ∧
    (∀ st rest, st.inString = true → st.escNext = false → st.inComment = false →
        scanBlock st ('/' :: rest) = ('/' :: (scanBlock st rest).1, (scanBlock st rest).2)) ∧
    (∀ st rest, st.inString = true → st.escNext = false → st.inComment = false →
        scanBlock st ('*' :: rest) = ('*' :: (scanBlock st rest).1, (scanBlock st rest).2)) := by
  refine ⟨rfl, ?_, ?_, ?_⟩
  · intro st rest hs he
    obtain ⟨i1, e1⟩ := st
    simp only at hs he
    subst hs he
    cases rest with
    | nil => rfl
    | cons d t => rw [scanLine]; split_ifs <;> simp_all [scanLine]
  · intro st rest hs he hc
    obtain ⟨i1, e1, c1⟩ := st
    simp only at hs he hc
    subst hs he hc
    cases rest with
    | nil => rfl
    | cons d t => rw [scanBlock]; split_ifs <;> simp_all [scanBlock]
  · intro st rest hs he hc
    obtain ⟨i1, e1, c1⟩ := st
    simp only at hs he hc
    subst hs he hc
    cases rest with
    | nil => rfl
    | cons d t => rw [scanBlock]; split_ifs <;> simp_all [scanBlock]

/-- C5 witness: the string-guard parts applied at a concrete in-string
state and suffix. -/
theorem C5_amended_witness :
    scanLine ⟨true, false⟩ ('/' :: "/x".data) =
      ('/' :: (scanLine ⟨true, false⟩ "/x".data).1, (scanLine ⟨true, false⟩ "/x".data).2) ∧
    scanBlock ⟨true, false, false⟩ ('/' :: "*x".data) =
      ('/' :: (scanBlock ⟨true, false, false⟩ "*x".data).1,
        (scanBlock ⟨true, false, false⟩ "*x".data).2) :=
  ⟨C5_amended.2.1 ⟨true, false⟩ "/x".data rfl rfl,
   C5_amended.2.2.1 ⟨true, false, false⟩ "*x".data rfl rfl rfl⟩


theorem digitChar_ne_nl (d : Nat) (hd : d < 10) : digitChar d ≠ '\n' := by
  interval_cases d <;> decide

theorem natToRevDigits_head (f n : Nat) (hf : n ≤ f) (hn : 1 ≤ n) :
    ∃ t, natToRevDigits f n = (n % 10) :: t := by
  cases f with
  | zero => omega
  | succ f =>
      cases n with
      | zero => omega
      | succ n => exact ⟨_, rfl⟩

theorem natRepr_getLast (n : Nat) : ∃ c, (natRepr n).getLast? = some c ∧ c ≠ '\n' := by
  by_cases h0 : n = 0
  · subst h0; exact ⟨'0', rfl, by decide⟩
  · have h1 : 1 ≤ n := Nat.one_le_iff_ne_zero.mpr h0
    obtain ⟨t, ht⟩ := natToRevDigits_head n n le_rfl h1
    refine ⟨digitChar (n % 10), ?_, digitChar_ne_nl _ (Nat.mod_lt _ (by omega))⟩
    rw [natRepr, if_neg h0, ht]
    simp [List.reverse_cons]

theorem intRepr_getLast (i : Int) : ∃ c, (intRepr i).getLast? = some c ∧ c ≠ '\n' := by
  obtain ⟨c, hc, hne⟩ := natRepr_getLast i.natAbs
  by_cases h : i < 0
  · refine ⟨c, ?_, hne⟩
    rw [intRepr, if_pos h]
    cases hrep : natRepr i.natAbs with
    | nil => rw [hrep] at hc; simp at hc
    | cons x xs =>
        rw [hrep] at hc
        rw [List.getLast?_cons_cons]
        exact hc
  · rw [intRepr, if_neg h]
    exact ⟨c, hc, hne⟩

theorem dumpsV_getLast (lv : Nat) (v : JVal) :
    ∃ c, (dumpsV lv v).getLast? = some c ∧ c ≠ '\n' := by
  cases v with
  | null => exact ⟨'l', rfl, by decide⟩
  | bool b => cases b with
      | true => exact ⟨'e', rfl, by decide⟩
      | false => exact ⟨'e', rfl, by decide⟩
  | num i => exact intRepr_getLast i
  | str s =>
      refine ⟨'"', ?_, by decide⟩
      show (escString s).getLast? = some '"'
      rw [escString]
      show ('"' :: escBody s ++ ['"']).getLast? = some '"'
      rw [show ('"' :: escBody s ++ ['"']) = ('"' :: escBody s) ++ ['"'] by simp]
      exact List.getLast?_concat _
  | arr a =>
      cases a with
      | nil => exact ⟨']', rfl, by decide⟩
      | cons x tl =>
          refine ⟨']', ?_, by decide⟩
          simp only [dumpsV]
          rw [show ('[' :: '\n' :: (dumpsItems (lv + 1) (.cons x tl) ++ '\n' :: (indentSp lv ++ [']'])))
              = ('[' :: '\n' :: (dumpsItems (lv + 1) (.cons x tl) ++ '\n' :: indentSp lv)) ++ [']'] by simp]
          exact List.getLast?_concat _
  | obj o =>
      cases o with
      | nil => exact ⟨'\x7d', rfl, by decide⟩
      | cons k v tl =>
          refine ⟨'\x7d', ?_, by decide⟩
          simp only [dumpsV]
          rw [show ('\x7b' :: '\n' :: (dumpsPairs (lv + 1) (.cons k v tl) ++ '\n' :: (indentSp lv ++ ['\x7d'])))
              = ('\x7b' :: '\n' :: (dumpsPairs (lv + 1) (.cons k v tl) ++ '\n' :: indentSp lv)) ++ ['\x7d'] by simp]
          exact List.getLast?_concat _

/-- C10, confirmed: every successful normalization emits exactly the
two-space-indented serialization of the parsed value, the output is
non-empty, and its last character is never a newline — the emitted
canonical text carries no trailing newline. -/
theorem C10 : ∀ s out, normalize s = .ok out →
    (∃ v, clean_json_content s = .ok v ∧ out = dumps v) ∧
    out ≠ [] ∧ out.getLast? ≠ some '\n' := by
  intro s out h
  unfold normalize at h
  cases heq : clean_json_content s with
  | error d => rw [heq] at h; exact absurd h (by simp)
  | ok v =>
      rw [heq] at h
      simp only [Except.ok.injEq] at h
      subst h
      obtain ⟨c, hc, hne⟩ := dumpsV_getLast 0 v
      refine ⟨⟨v, rfl, rfl⟩, ?_, ?_⟩
      · intro hnil
        rw [dumps] at hnil
        rw [hnil] at hc
        simp at hc
      · rw [dumps, hc]
        simp [hne]

/-- C10 witness: applied to a concrete successful input. -/
theorem C10_witness :
    (∃ v, clean_json_content "1".data = .ok v ∧ "1".data = dumps v) ∧
    "1".data ≠ [] ∧ "1".data.getLast? ≠ some '\n' :=
  C10 "1".data "1".data rfl


/-- Key membership in an object. -/
def objHasKey : JObj → List Char → Bool
  | .nil, _ => false
  | .cons k0 _ tl, k => decide (k0 = k) || objHasKey tl k

mutual
/-- Well-formedness of a parsed value: object keys are distinct at
every level.  The parser can only produce such values, because object
members are folded in with dict update semantics. -/
def wfV : JVal → Bool
  | .null => true
  | .bool _ => true
  | .num _ => true
  | .str _ => true
  | .arr a => wfA a
  | .obj o => wfO o
/-- Well-formedness of array elements. -/
def wfA : JArr → Bool
  | .nil => true
  | .cons x tl => wfV x && wfA tl
/-- Well-formedness of object members. -/
def wfO : JObj → Bool
  | .nil => true
  | .cons k v tl => !objHasKey tl k && wfV v && wfO tl
end

theorem objHasKey_objUpd (o : JObj) (k : List Char) (v : JVal) (k2 : List Char) :
    objHasKey (objUpd o k v) k2 = (objHasKey o k2 || decide (k = k2)) := by
  induction o, k, v using objUpd.induct with
  | case1 k v => simp [objUpd, objHasKey]
  | case2 v0 tl k v =>
      simp only [objUpd, if_pos rfl, objHasKey]
      cases h2 : decide (k = k2) <;> cases h3 : objHasKey tl k2 <;> simp_all
  | case3 k0 v0 tl k v h ih =>
      simp only [objUpd, if_neg h, objHasKey, ih]
      cases h2 : decide (k0 = k2) <;> cases h3 : objHasKey tl k2 <;>
        cases h4 : decide (k = k2) <;> simp_all

theorem objUpd_wf (o : JObj) (k : List Char) (v : JVal) :
    wfO o = true → wfV v = true → wfO (objUpd o k v) = true := by
  induction o, k, v using objUpd.induct with
  | case1 k v => intro _ hv; simp [objUpd, wfO, objHasKey, hv]
  | case2 v0 tl k v =>
      intro ho hv
      rw [wfO, Bool.and_eq_true, Bool.and_eq_true] at ho
      obtain ⟨⟨hk, hv0⟩, htl⟩ := ho
      simp only [objUpd, if_pos rfl, wfO, Bool.and_eq_true]
      exact ⟨⟨hk, hv⟩, htl⟩
  | case3 k0 v0 tl k v h ih =>
      intro ho hv
      rw [wfO, Bool.and_eq_true, Bool.and_eq_true] at ho
      obtain ⟨⟨hk, hv0⟩, htl⟩ := ho
      simp only [objUpd, if_neg h, wfO, Bool.and_eq_true, objHasKey_objUpd]
      refine ⟨⟨?_, hv0⟩, ih htl hv⟩
      have hne : decide (k = k0) = false := by
        simp only [decide_eq_false_iff_not]
        exact fun he => h he.symm
      simp only [hne, Bool.or_false]
      exact hk


set_option maxHeartbeats 4000000 in
theorem parse_wf : ∀ f,
    (∀ cs v r, parseVal f cs = .ok (v, r) → wfV v = true) ∧
    (∀ cs es r, parseElems f cs = .ok (es, r) → wfA es = true) ∧
    (∀ acc cs o r, wfO acc = true → parseMembers f acc cs = .ok (o, r) → wfO o = true) := by
  intro f
  induction f with
  | zero =>
      refine ⟨?_, ?_, ?_⟩
      · intro cs v r h
        rw [show parseVal 0 cs = Except.error ⟨"parser fuel exhausted".data, cs.length⟩ from rfl] at h
        simp at h
      · intro cs es r h
        rw [show parseElems 0 cs = Except.error ⟨"parser fuel exhausted".data, cs.length⟩ from rfl] at h
        simp at h
      · intro acc cs o r hw h
        rw [show parseMembers 0 acc cs = Except.error ⟨"parser fuel exhausted".data, cs.length⟩ from rfl] at h
        simp at h
  | succ f ih =>
      obtain ⟨ihV, ihE, ihM⟩ := ih
      refine ⟨?_, ?_, ?_⟩
      · intro cs v r h
        rw [parseVal.eq_def] at h
        split at h
        all_goals try exact Except.noConfusion h
        all_goals try (split at h)
        all_goals try exact Except.noConfusion h
        all_goals try (split at h)
        all_goals try (split at h)
        all_goals try exact Except.noConfusion h
        all_goals try (split at h)
        all_goals try exact Except.noConfusion h
        all_goals injections
        all_goals subst_vars
        all_goals try rfl
        all_goals simp only [wfV]
        all_goals first
          | exact ihM JObj.nil _ _ _ rfl (by assumption)
          | exact ihE _ _ _ (by assumption)
      · intro cs es r h
        rw [parseElems.eq_def] at h
        split at h
        all_goals try exact Except.noConfusion h
        all_goals try (split at h)
        all_goals try exact Except.noConfusion h
        all_goals try (split at h)
        all_goals try exact Except.noConfusion h
        all_goals try (split at h)
        all_goals try (split at h)
        all_goals try exact Except.noConfusion h
        all_goals try (split at h)
        all_goals try exact Except.noConfusion h
        all_goals injections
        all_goals subst_vars
        all_goals simp only [wfA, Bool.and_eq_true]
        all_goals first
          | exact ⟨ihV _ _ _ (by assumption), ihE _ _ _ (by assumption)⟩
          | exact ⟨ihV _ _ _ (by assumption), trivial⟩
      · intro acc cs o r hacc h
        rw [parseMembers.eq_def] at h
        split at h
        all_goals try exact Except.noConfusion h
        all_goals try (split at h)
        all_goals try exact Except.noConfusion h
        all_goals try (split at h)
        all_goals try exact Except.noConfusion h
        all_goals try (split at h)
        all_goals try exact Except.noConfusion h
        all_goals try (split at h)
        all_goals try exact Except.noConfusion h
        all_goals try (split at h)
        all_goals try (split at h)
        all_goals try exact Except.noConfusion h
        all_goals try (split at h)
        all_goals try exact Except.noConfusion h
        all_goals injections
        all_goals subst_vars
        all_goals first
          | exact ihM _ _ _ _ (objUpd_wf _ _ _ hacc (ihV _ _ _ (by assumption))) (by assumption)
          | exact objUpd_wf _ _ _ hacc (ihV _ _ _ (by assumption))


/-- The whitespace class of the parser, as a reusable test. -/
def isJsonWs (c : Char) : Bool :=
  c = ' ' || c = '\t' || c = '\n' || c = '\r'

/-- The input does not begin with a digit (used to delimit a serialized
number from what follows it). -/
def headNotDigit : List Char → Bool
  | [] => true
  | c :: _ => !c.isDigit

/-- A character that can begin a serialized JSON value. -/
def valHead (c : Char) : Prop :=
  c = '\x7b' ∨ c = '[' ∨ c = '"' ∨ c = 't' ∨ c = 'f' ∨ c = 'n' ∨ c = '-' ∨ c.isDigit = true

theorem skipWs_cons_not_ws {c : Char} (h : isJsonWs c = false) (r : List Char) :
    skipWs (c :: r) = c :: r := by
  rw [skipWs]
  rw [isJsonWs] at h
  simp only [h]
  simp only [Bool.or_eq_false_iff, decide_eq_false_iff_not] at h
  simp [h.1.1.1, h.1.1.2, h.1.2, h.2]

theorem skipWs_ws_append {w : List Char} (hw : ∀ c ∈ w, isJsonWs c = true) (r : List Char) :
    skipWs (w ++ r) = skipWs r := by
  induction w with
  | nil => rfl
  | cons c w ih =>
      have hc := hw c (List.mem_cons_self c w)
      rw [isJsonWs, Bool.or_eq_true, Bool.or_eq_true, Bool.or_eq_true] at hc
      simp only [decide_eq_true_eq] at hc
      rw [List.cons_append, skipWs]
      have : (c = ' ' || c = '\t' || c = '\n' || c = '\r') = true := by
        simp only [Bool.or_eq_true, decide_eq_true_eq]
        tauto
      simp only [this, if_true]
      exact ih (fun c h => hw c (List.mem_cons_of_mem _ h))

theorem indentSp_ws (lv : Nat) : ∀ c ∈ indentSp lv, isJsonWs c = true := by
  intro c hc
  have := List.eq_of_mem_replicate hc
  subst this
  rfl

theorem skipWs_indent (lv : Nat) (r : List Char) :
    skipWs (indentSp lv ++ r) = skipWs r :=
  skipWs_ws_append (indentSp_ws lv) r

theorem skipWs_nl (r : List Char) : skipWs ('\n' :: r) = skipWs r := by
  rw [skipWs]
  simp

theorem valHead_props {c : Char} (h : valHead c) :
    isJsonWs c = false ∧ c ≠ ']' ∧ c ≠ '\x7d' ∧ c ≠ ':' ∧ c ≠ ',' := by
  rcases h with h | h | h | h | h | h | h | h
  · subst h; exact ⟨rfl, by decide, by decide, by decide, by decide⟩
  · subst h; exact ⟨rfl, by decide, by decide, by decide, by decide⟩
  · subst h; exact ⟨rfl, by decide, by decide, by decide, by decide⟩
  · subst h; exact ⟨rfl, by decide, by decide, by decide, by decide⟩
  · subst h; exact ⟨rfl, by decide, by decide, by decide, by decide⟩
  · subst h; exact ⟨rfl, by decide, by decide, by decide, by decide⟩
  · subst h; exact ⟨rfl, by decide, by decide, by decide, by decide⟩
  · refine ⟨?_, ?_, ?_, ?_, ?_⟩ <;>
      first
      | (intro he; subst he; exact absurd h (by decide))
      | (rw [isJsonWs]
         rw [Char.isDigit] at h
         simp only [Bool.and_eq_true, decide_eq_true_eq] at h
         simp only [Bool.or_eq_false_iff, decide_eq_false_iff_not]
         refine ⟨⟨⟨?_, ?_⟩, ?_⟩, ?_⟩ <;>
           (intro he; subst he; revert h; decide))

theorem natToRevDigits_lt (f : Nat) : ∀ n d, d ∈ natToRevDigits f n → d < 10 := by
  induction f with
  | zero => intro n d hd; simp [natToRevDigits] at hd
  | succ f ih =>
      intro n d hd
      cases n with
      | zero => simp [natToRevDigits] at hd
      | succ n =>
          rw [natToRevDigits] at hd
          rcases List.mem_cons.mp hd with h | h
          · subst h; exact Nat.mod_lt _ (by omega)
          · exact ih _ _ h

theorem natToRevDigits_ne_nil (f n : Nat) (hf : 1 ≤ f) (hn : 1 ≤ n) :
    natToRevDigits f n ≠ [] := by
  cases f with
  | zero => omega
  | succ f =>
      cases n with
      | zero => omega
      | succ n => simp [natToRevDigits]

theorem digitChar_isDigit (d : Nat) (hd : d < 10) : (digitChar d).isDigit = true := by
  interval_cases d <;> decide

theorem natRepr_head (n : Nat) : ∃ d t, natRepr n = digitChar d :: t ∧ d < 10 := by
  by_cases h0 : n = 0
  · subst h0; exact ⟨0, [], rfl, by omega⟩
  · rw [natRepr, if_neg h0]
    cases hrev : (natToRevDigits n n).reverse with
    | nil =>
        exact absurd (List.reverse_eq_nil_iff.mp hrev)
          (natToRevDigits_ne_nil n n (by omega) (by omega))
    | cons d ds =>
        have hmem : d ∈ (natToRevDigits n n).reverse := by
          rw [hrev]
          exact List.mem_cons_self d ds
        exact ⟨d, ds.map digitChar, rfl, natToRevDigits_lt n n d (List.mem_reverse.mp hmem)⟩

theorem intRepr_head (i : Int) : ∃ c t, intRepr i = c :: t ∧ (c = '-' ∨ c.isDigit = true) := by
  obtain ⟨d, t, ht, hd⟩ := natRepr_head i.natAbs
  by_cases h : i < 0
  · exact ⟨'-', natRepr i.natAbs, by rw [intRepr, if_pos h], Or.inl rfl⟩
  · exact ⟨digitChar d, t, by rw [intRepr, if_neg h]; exact ht,
      Or.inr (digitChar_isDigit d hd)⟩

theorem dumpsV_head (L : Nat) (v : JVal) :
    ∃ c t, dumpsV L v = c :: t ∧ valHead c := by
  cases v with
  | null => exact ⟨'n', _, rfl, by rw [valHead]; tauto⟩
  | bool b =>
      cases b with
      | true => exact ⟨'t', _, rfl, by rw [valHead]; tauto⟩
      | false => exact ⟨'f', _, rfl, by rw [valHead]; tauto⟩
  | num i =>
      obtain ⟨c, t, ht, hc⟩ := intRepr_head i
      exact ⟨c, t, ht, by rw [valHead]; tauto⟩
  | str s => exact ⟨'"', _, rfl, by rw [valHead]; tauto⟩
  | arr a =>
      cases a with
      | nil => exact ⟨'[', _, rfl, by rw [valHead]; tauto⟩
      | cons x tl => exact ⟨'[', _, rfl, by rw [valHead]; tauto⟩
  | obj o =>
      cases o with
      | nil => exact ⟨'\x7b', _, rfl, by rw [valHead]; tauto⟩
      | cons k v tl => exact ⟨'\x7b', _, rfl, by rw [valHead]; tauto⟩

theorem hexVal_hexDigit (k : Nat) (hk : k < 16) : hexVal? (hexDigit k) = some k := by
  interval_cases k <;> decide

theorem parseHex4_lowbyte (n : Nat) (hn : n < 32) :
    parseHex4 '0' '0' (hexDigit (n / 16)) (hexDigit (n % 16)) = some n := by
  rw [parseHex4, hexVal_hexDigit (n / 16) (by omega), hexVal_hexDigit (n % 16) (by omega)]
  rw [show hexVal? '0' = some 0 from rfl]
  simp only [Option.some.injEq]
  omega

theorem parseStr_escBody : ∀ s br rest,
    parseStr br (escBody s ++ '"' :: rest) = .ok (s, rest) := by
  intro s
  induction s with
  | nil => intro br rest; rfl
  | cons c s ih =>
      intro br rest
      rw [show escBody (c :: s) = escChar c ++ escBody s from rfl, List.append_assoc]
      rw [escChar]
      split_ifs with h1 h2 h3 h4 h5 h6 h7 h8
      · subst h1
        show parseStr br ('\\' :: '"' :: (escBody s ++ '"' :: rest)) = _
        rw [show parseStr br ('\\' :: '"' :: (escBody s ++ '"' :: rest)) =
            (match parseStr br (escBody s ++ '"' :: rest) with
             | .ok (s2, r) => .ok ('"' :: s2, r)
             | .error e2 => .error e2) from rfl]
        rw [ih br rest]
      · subst h2
        show parseStr br ('\\' :: '\\' :: (escBody s ++ '"' :: rest)) = _
        rw [show parseStr br ('\\' :: '\\' :: (escBody s ++ '"' :: rest)) =
            (match parseStr br (escBody s ++ '"' :: rest) with
             | .ok (s2, r) => .ok ('\\' :: s2, r)
             | .error e2 => .error e2) from rfl]
        rw [ih br rest]
      · subst h3
        show parseStr br ('\\' :: 'n' :: (escBody s ++ '"' :: rest)) = _
        rw [show parseStr br ('\\' :: 'n' :: (escBody s ++ '"' :: rest)) =
            (match parseStr br (escBody s ++ '"' :: rest) with
             | .ok (s2, r) => .ok ('\n' :: s2, r)
             | .error e2 => .error e2) from rfl]
        rw [ih br rest]
      · subst h4
        show parseStr br ('\\' :: 'r' :: (escBody s ++ '"' :: rest)) = _
        rw [show parseStr br ('\\' :: 'r' :: (escBody s ++ '"' :: rest)) =
            (match parseStr br (escBody s ++ '"' :: rest) with
             | .ok (s2, r) => .ok ('\r' :: s2, r)
             | .error e2 => .error e2) from rfl]
        rw [ih br rest]
      · subst h5
        show parseStr br ('\\' :: 't' :: (escBody s ++ '"' :: rest)) = _
        rw [show parseStr br ('\\' :: 't' :: (escBody s ++ '"' :: rest)) =
            (match parseStr br (escBody s ++ '"' :: rest) with
             | .ok (s2, r) => .ok ('\t' :: s2, r)
             | .error e2 => .error e2) from rfl]
        rw [ih br rest]
      · subst h6
        show parseStr br ('\\' :: 'b' :: (escBody s ++ '"' :: rest)) = _
        rw [show parseStr br ('\\' :: 'b' :: (escBody s ++ '"' :: rest)) =
            (match parseStr br (escBody s ++ '"' :: rest) with
             | .ok (s2, r) => .ok ('\x08' :: s2, r)
             | .error e2 => .error e2) from rfl]
        rw [ih br rest]
      · subst h7
        show parseStr br ('\\' :: 'f' :: (escBody s ++ '"' :: rest)) = _
        rw [show parseStr br ('\\' :: 'f' :: (escBody s ++ '"' :: rest)) =
            (match parseStr br (escBody s ++ '"' :: rest) with
             | .ok (s2, r) => .ok ('\x0c' :: s2, r)
             | .error e2 => .error e2) from rfl]
        rw [ih br rest]
      · -- control character below 32, written as a u-escape
        show parseStr br ('\\' :: 'u' :: '0' :: '0' :: hexDigit (c.toNat / 16) ::
            hexDigit (c.toNat % 16) :: (escBody s ++ '"' :: rest)) = _
        have hs1 : (0xD800 ≤ c.toNat && c.toNat ≤ 0xDBFF) = false := by
          have h9 : ¬(0xD800 ≤ c.toNat) := by omega
          simp [h9]
        have hs2 : (0xDC00 ≤ c.toNat && c.toNat ≤ 0xDFFF) = false := by
          have h9 : ¬(0xDC00 ≤ c.toNat) := by omega
          simp [h9]
        simp only [parseStr]
        rw [parseHex4_lowbyte c.toNat h8]
        simp only [hs1, hs2, Bool.false_eq_true, if_false]
        rw [ih br rest, Char.ofNat_toNat]
      · -- plain character at code point 32 or above
        show parseStr br (c :: (escBody s ++ '"' :: rest)) = _
        rw [parseStr.eq_def]
        split
        · rename_i heq
          exact absurd heq (by simp)
        · rename_i rest2 heq
          injection heq with hc1 hc2
          exact absurd hc1 h1
        · rename_i g1 g2 g3 g4 rest2 heq
          injection heq with hc1 hc2
          exact absurd hc1 h2
        · rename_i e rest2 heq
          injection heq with hc1 hc2
          exact absurd hc1 h2
        · rename_i c2 rest2 hne1 hne2 hne3 heq
          injection heq with hc1 hc2
          subst hc1
          subst hc2
          rw [if_neg h8]
          rw [ih br rest]

/-- Value of a little-endian decimal digit list. -/
def ofRevDigits : List Nat → Nat
  | [] => 0
  | d :: ds => d + 10 * ofRevDigits ds

theorem natToRevDigits_val : ∀ f n, n ≤ f → ofRevDigits (natToRevDigits f n) = n := by
  intro f
  induction f with
  | zero =>
      intro n h
      interval_cases n
      rfl
  | succ f ih =>
      intro n h
      cases n with
      | zero => rfl
      | succ n =>
          rw [natToRevDigits, ofRevDigits, ih ((n + 1) / 10) (by omega)]
          omega

theorem digitChar_toNat (d : Nat) (hd : d < 10) : (digitChar d).toNat = 48 + d := by
  interval_cases d <;> decide

theorem digitsToNat_rev : ∀ l, (∀ d ∈ l, d < 10) →
    digitsToNat (l.reverse.map digitChar) = ofRevDigits l := by
  intro l
  induction l with
  | nil => intro _; rfl
  | cons d ds ih =>
      intro h
      have hd : d < 10 := h d (List.mem_cons_self d ds)
      have hds : ∀ d ∈ ds, d < 10 := fun x hx => h x (List.mem_cons_of_mem _ hx)
      rw [ofRevDigits, List.reverse_cons, List.map_append]
      rw [digitsToNat, List.foldl_append]
      rw [show List.foldl (fun a c => a * 10 + (c.toNat - 48)) 0 (ds.reverse.map digitChar)
          = digitsToNat (ds.reverse.map digitChar) from rfl, ih hds]
      simp only [List.map_cons, List.map_nil, List.foldl_cons, List.foldl_nil]
      rw [digitChar_toNat d hd]
      omega

theorem takeDigits_exact : ∀ ds, (∀ c ∈ ds, c.isDigit = true) →
    ∀ r, headNotDigit r = true → takeDigits (ds ++ r) = (ds, r) := by
  intro ds
  induction ds with
  | nil =>
      intro _ r hr
      cases r with
      | nil => rfl
      | cons c r2 =>
          rw [headNotDigit, Bool.not_eq_true'] at hr
          rw [List.nil_append, takeDigits, hr]
          simp
  | cons c ds ih =>
      intro h r hr
      have hc : c.isDigit = true := h c (List.mem_cons_self c ds)
      rw [List.cons_append, takeDigits, hc]
      simp only [if_true]
      rw [ih (fun x hx => h x (List.mem_cons_of_mem _ hx)) r hr]

theorem natToRevDigits_msd : ∀ f n, 1 ≤ n → n ≤ f →
    ∀ d, (natToRevDigits f n).getLast? = some d → d ≠ 0 := by
  intro f
  induction f with
  | zero => intro n h1 h2; omega
  | succ f ih =>
      intro n h1 h2 d hd
      cases n with
      | zero => omega
      | succ n =>
          rw [natToRevDigits] at hd
          by_cases hq : (n + 1) / 10 = 0
          · rw [hq] at hd
            rw [show natToRevDigits f 0 = [] by cases f <;> rfl] at hd
            simp only [List.getLast?_singleton, Option.some.injEq] at hd
            omega
          · cases htl : natToRevDigits f ((n + 1) / 10) with
            | nil =>
                exact absurd htl (natToRevDigits_ne_nil f _ (by omega) (by omega))
            | cons e es =>
                rw [htl, List.getLast?_cons_cons] at hd
                exact ih ((n + 1) / 10) (by omega) (by omega) d (htl ▸ hd)

theorem parseNatTok_natRepr (n : Nat) : ∀ r, headNotDigit r = true →
    parseNatTok (natRepr n ++ r) = some (n, r) := by
  intro r hr
  by_cases h0 : n = 0
  · subst h0
    cases r with
    | nil => rfl
    | cons c r2 => rfl
  · have hval := natToRevDigits_val n n le_rfl
    have hlt := natToRevDigits_lt n n
    cases hrev : (natToRevDigits n n).reverse with
    | nil =>
        exact absurd (List.reverse_eq_nil_iff.mp hrev)
          (natToRevDigits_ne_nil n n (by omega) (by omega))
    | cons d ds =>
        have hd10 : d < 10 := hlt d (List.mem_reverse.mp (hrev ▸ List.mem_cons_self d ds))
        have hd0 : d ≠ 0 := by
          have hh : (natToRevDigits n n).getLast? = some d := by
            rw [← List.head?_reverse, hrev]
            rfl
          exact natToRevDigits_msd n n (by omega) le_rfl d hh
        have hds : ∀ x ∈ ds.map digitChar, x.isDigit = true := by
          intro x hx
          obtain ⟨e, he, hex⟩ := List.mem_map.mp hx
          have : e < 10 := hlt e (List.mem_reverse.mp (hrev ▸ List.mem_cons_of_mem d he))
          rw [← hex]
          exact digitChar_isDigit e this
        have hnat : natRepr n = digitChar d :: ds.map digitChar := by
          rw [natRepr, if_neg h0, hrev]
          rfl
        rw [hnat, List.cons_append]
        rw [parseNatTok.eq_def]
        split
        · rename_i heq
          exact absurd heq (by simp)
        · rename_i rest2 heq
          injection heq with hc1 hc2
          have := congrArg Char.toNat hc1
          rw [digitChar_toNat d hd10] at this
          rw [show ('0' : Char).toNat = 48 from rfl] at this
          omega
        · rename_i c2 rest2 hne heq
          injection heq with hc1 hc2
          subst hc1
          subst hc2
          rw [if_pos (digitChar_isDigit d hd10)]
          rw [takeDigits_exact (ds.map digitChar) hds r hr]
          simp only [Option.some.injEq, Prod.mk.injEq]
          refine ⟨?_, trivial⟩
          have : digitChar d :: ds.map digitChar = (natToRevDigits n n).reverse.map digitChar := by
            rw [hrev]
            rfl
          rw [this, digitsToNat_rev (natToRevDigits n n) hlt, hval]

theorem parseNum_intRepr (i : Int) : ∀ r, headNotDigit r = true →
    parseNum (intRepr i ++ r) = .ok (i, r) := by
  intro r hr
  by_cases h : i < 0
  · rw [intRepr, if_pos h, List.cons_append]
    rw [show parseNum ('-' :: (natRepr i.natAbs ++ r)) =
        (match parseNatTok (natRepr i.natAbs ++ r) with
         | some (n, r2) => .ok (-(n : Int), r2)
         | none => .error ⟨"Expecting value".data, (natRepr i.natAbs ++ r).length + 1⟩) from rfl]
    rw [parseNatTok_natRepr i.natAbs r hr]
    simp only [Except.ok.injEq, Prod.mk.injEq]
    exact ⟨by omega, trivial⟩
  · rw [intRepr, if_neg h]
    obtain ⟨d, t, ht, hd10⟩ := natRepr_head i.natAbs
    rw [parseNum.eq_def]
    split
    · rename_i rest2 heq
      rw [ht, List.cons_append] at heq
      injection heq with hc1 hc2
      have := congrArg Char.toNat hc1
      rw [digitChar_toNat d hd10] at this
      rw [show ('-' : Char).toNat = 45 from rfl] at this
      omega
    · rename_i cs2 hne
      rw [parseNatTok_natRepr i.natAbs r hr]
      simp only [Except.ok.injEq, Prod.mk.injEq]
      exact ⟨by omega, trivial⟩

mutual
/-- Fuel measure of a value: an upper bound on the parser recursion
depth needed to read its serialization back. -/
def szV : JVal → Nat
  | .null => 1
  | .bool _ => 1
  | .num _ => 1
  | .str _ => 1
  | .arr a => szA a + 1
  | .obj o => szO o + 1
/-- Fuel measure of array elements. -/
def szA : JArr → Nat
  | .nil => 1
  | .cons x tl => szV x + szA tl + 1
/-- Fuel measure of object members. -/
def szO : JObj → Nat
  | .nil => 1
  | .cons _ v tl => szV v + szO tl + 1
end

/-- The serialized items of an array after the first element: separator,
newline, indentation and the next serialized element, repeatedly. -/
def dumpsItemsTail (L : Nat) : JArr → List Char
  | .nil => []
  | .cons y tl => ',' :: '\n' :: (indentSp L ++ (dumpsV L y ++ dumpsItemsTail L tl))

/-- The serialized members of an object after the first pair. -/
def dumpsPairsTail (L : Nat) : JObj → List Char
  | .nil => []
  | .cons k v tl =>
      ',' :: '\n' :: (indentSp L ++ (escString k ++ ':' :: ' ' :: (dumpsV L v ++ dumpsPairsTail L tl)))

/-- Concatenation of member lists. -/
def objCat : JObj → JObj → JObj
  | .nil, o => o
  | .cons k v tl, o => .cons k v (objCat tl o)

/-- Folding a member list into an accumulator with dict update
semantics, as the member parser does. -/
def objAppend : JObj → JObj → JObj
  | acc, .nil => acc
  | acc, .cons k v tl => objAppend (objUpd acc k v) tl

theorem dumpsItems_decomp (L : Nat) : ∀ (a : JArr) (x : JVal),
    dumpsItems L (.cons x a) = indentSp L ++ (dumpsV L x ++ dumpsItemsTail L a) := by
  intro a
  induction a using dumpsItemsTail.induct
  · exact L
  · intro x
    simp [dumpsItems, dumpsItemsTail]
  · rename_i y tl ih
    intro x
    rw [dumpsItems, ih y]
    simp [dumpsItemsTail, List.append_assoc]

theorem dumpsPairs_decomp (L : Nat) : ∀ (o : JObj) (k : List Char) (v : JVal),
    dumpsPairs L (.cons k v o) =
      indentSp L ++ (escString k ++ ':' :: ' ' :: (dumpsV L v ++ dumpsPairsTail L o)) := by
  intro o
  induction o using dumpsPairsTail.induct
  · exact L
  · intro k v
    simp [dumpsPairs, dumpsPairsTail]
  · rename_i k2 v2 tl ih
    intro k v
    rw [dumpsPairs, ih k2 v2]
    simp [dumpsPairsTail, List.append_assoc]

theorem isJsonWs_not_digit {c : Char} (h : isJsonWs c = true) : c.isDigit = false := by
  rw [isJsonWs] at h
  simp only [Bool.or_eq_true, decide_eq_true_eq] at h
  rcases h with ((h | h) | h) | h <;> (subst h; decide)

theorem headNotDigit_cons {c : Char} (h : c.isDigit = false) (r : List Char) :
    headNotDigit (c :: r) = true := by
  rw [headNotDigit, h]
  rfl

theorem headNotDigit_ws_append {W : List Char} (hW : ∀ c ∈ W, isJsonWs c = true)
    {c : Char} (hc : c.isDigit = false) (r : List Char) :
    headNotDigit (W ++ c :: r) = true := by
  cases W with
  | nil => exact headNotDigit_cons hc r
  | cons w W2 =>
      exact headNotDigit_cons (isJsonWs_not_digit (hW w (List.mem_cons_self w W2))) _

theorem skipWs_dumpsV (L : Nat) (v : JVal) (X : List Char) :
    skipWs (dumpsV L v ++ X) = dumpsV L v ++ X := by
  obtain ⟨c, t, hct, hvh⟩ := dumpsV_head L v
  rw [hct, List.cons_append, skipWs_cons_not_ws (valHead_props hvh).1]

theorem objCat_nil_aux : ∀ (a o : JObj), o = .nil → objCat a o = a := by
  intro a o
  induction a, o using objCat.induct
  · intro h; exact h
  · rename_i k v tl o ih
    intro h
    rw [objCat, ih h]

theorem objCat_nil (a : JObj) : objCat a .nil = a :=
  objCat_nil_aux a .nil rfl

theorem objCat_assoc : ∀ (a b : JObj), ∀ c, objCat (objCat a b) c = objCat a (objCat b c) := by
  intro a b
  induction a, b using objCat.induct
  · intro c; rfl
  · rename_i k v tl o ih
    intro c
    rw [objCat, objCat, objCat, ih c]

theorem objUpd_not_mem : ∀ (acc : JObj) (k : List Char) (v : JVal),
    objHasKey acc k = false → objUpd acc k v = objCat acc (.cons k v .nil) := by
  intro acc k v
  induction acc, k, v using objUpd.induct
  · intro _; rfl
  · rename_i v0 tl k v
    intro h
    rw [objHasKey] at h
    simp at h
  · rename_i k0 v0 tl k v hne ih
    intro h
    rw [objHasKey, Bool.or_eq_false_iff] at h
    rw [objUpd, if_neg hne, objCat, ih h.2]

theorem objAppend_cat : ∀ (acc o : JObj), wfO o = true →
    (∀ k2, objHasKey o k2 = true → objHasKey acc k2 = false) →
    objAppend acc o = objCat acc o := by
  intro acc o
  induction acc, o using objAppend.induct
  · intro _ _
    rw [objAppend, objCat_nil]
  · rename_i acc k v tl ih
    intro hw hdis
    rw [wfO, Bool.and_eq_true, Bool.and_eq_true] at hw
    obtain ⟨⟨hk, hv⟩, htl⟩ := hw
    have hknot : objHasKey acc k = false := by
      apply hdis
      rw [objHasKey]
      simp
    rw [objAppend, ih htl ?_, objUpd_not_mem acc k v hknot, objCat_assoc]
    · rfl
    · intro k2 h2
      rw [objHasKey_objUpd, Bool.or_eq_false_iff]
      constructor
      · apply hdis
        rw [objHasKey, h2]
        simp
      · simp only [decide_eq_false_iff_not]
        intro he
        subst he
        rw [h2] at hk
        simp at hk

theorem objAppend_nil_left (o : JObj) (h : wfO o = true) : objAppend .nil o = o := by
  rw [objAppend_cat .nil o h (fun k2 _ => rfl)]
  rfl

theorem szV_pos (v : JVal) : 1 ≤ szV v := by
  cases v <;> rw [szV] <;> omega

theorem szA_pos (a : JArr) : 1 ≤ szA a := by
  cases a <;> rw [szA] <;> omega

theorem szO_pos (o : JObj) : 1 ≤ szO o := by
  cases o <;> rw [szO] <;> omega

theorem skipWs_space (r : List Char) : skipWs (' ' :: r) = skipWs r := by
  rw [skipWs]
  simp

theorem headNotDigit_itemsTail (L : Nat) (a : JArr) (W : List Char)
    (hW : ∀ c ∈ W, isJsonWs c = true) (b : Char) (hb : b.isDigit = false) (rest : List Char) :
    headNotDigit (dumpsItemsTail L a ++ (W ++ b :: rest)) = true := by
  cases a with
  | nil => exact headNotDigit_ws_append hW hb rest
  | cons y tl => exact headNotDigit_cons (by decide) _

theorem headNotDigit_pairsTail (L : Nat) (o : JObj) (W : List Char)
    (hW : ∀ c ∈ W, isJsonWs c = true) (b : Char) (hb : b.isDigit = false) (rest : List Char) :
    headNotDigit (dumpsPairsTail L o ++ (W ++ b :: rest)) = true := by
  cases o with
  | nil => exact headNotDigit_ws_append hW hb rest
  | cons k v tl => exact headNotDigit_cons (by decide) _

mutual
/-- Round trip for one serialized value: the parser reads back exactly
the value the serializer emitted, leaving the trailing input. -/
theorem rtV (v : JVal) (f L : Nat) (rest : List Char)
    (hf : szV v ≤ f) (hw : wfV v = true) (hr : headNotDigit rest = true) :
    parseVal f (dumpsV L v ++ rest) = .ok (v, rest) := by
  cases f with
  | zero => exact absurd hf (by have := szV_pos v; omega)
  | succ f2 =>
      cases v with
      | null => rfl
      | bool b => cases b with | true => rfl | false => rfl
      | num i =>
          rw [show dumpsV L (.num i) = intRepr i from rfl]
          obtain ⟨c, t, hct, hch⟩ := intRepr_head i
          rw [parseVal.eq_def]
          split
          · exfalso; omega
          split
          · rename_i rest2 heq
            rw [hct, List.cons_append] at heq
            injection heq with h1 h2
            subst h1
            rcases hch with hc | hc <;> exact absurd hc (by decide)
          · rename_i rest2 heq
            rw [hct, List.cons_append] at heq
            injection heq with h1 h2
            subst h1
            rcases hch with hc | hc <;> exact absurd hc (by decide)
          · rename_i rest2 heq
            rw [hct, List.cons_append] at heq
            injection heq with h1 h2
            subst h1
            rcases hch with hc | hc <;> exact absurd hc (by decide)
          · rename_i rest2 heq
            rw [hct, List.cons_append] at heq
            injection heq with h1 h2
            subst h1
            rcases hch with hc | hc <;> exact absurd hc (by decide)
          · rename_i rest2 heq
            rw [hct, List.cons_append] at heq
            injection heq with h1 h2
            subst h1
            rcases hch with hc | hc <;> exact absurd hc (by decide)
          · rename_i rest2 heq
            rw [hct, List.cons_append] at heq
            injection heq with h1 h2
            subst h1
            rcases hch with hc | hc <;> exact absurd hc (by decide)
          · rw [parseNum_intRepr i rest hr]
      | str s =>
          have hshape : dumpsV L (.str s) ++ rest = '"' :: (escBody s ++ '"' :: rest) := by
            rw [show dumpsV L (.str s) = escString s from rfl, escString]
            simp [List.append_assoc]
          rw [hshape]
          simp only [parseVal]
          rw [parseStr_escBody s _ rest]
      | arr a =>
          cases a with
          | nil => rfl
          | cons x tl =>
              have hshape : dumpsV L (.arr (.cons x tl)) ++ rest =
                  '[' :: '\n' :: (indentSp (L + 1) ++ (dumpsV (L + 1) x ++
                    (dumpsItemsTail (L + 1) tl ++ (('\n' :: indentSp L) ++ ']' :: rest)))) := by
                simp only [dumpsV]
                rw [dumpsItems_decomp (L + 1) tl x]
                simp [List.append_assoc]
              rw [hshape]
              simp only [parseVal]
              rw [skipWs_nl, skipWs_indent, skipWs_dumpsV]
              split
              · rename_i r2 heq
                obtain ⟨c, t, hct, hvh⟩ := dumpsV_head (L + 1) x
                rw [hct, List.cons_append] at heq
                injection heq with h1 h2
                exact absurd h1 (valHead_props hvh).2.1
              · rw [szV, szA] at hf
                rw [wfV, wfA, Bool.and_eq_true] at hw
                rw [rtA tl x f2 (L + 1) ('\n' :: indentSp L) rest (by omega) hw.1 hw.2
                  (by
                    intro c hc
                    rcases List.mem_cons.mp hc with h | h
                    · subst h; rfl
                    · exact indentSp_ws L c h)]
      | obj o =>
          cases o with
          | nil => rfl
          | cons k v tl =>
              have hshape : dumpsV L (.obj (.cons k v tl)) ++ rest =
                  '\x7b' :: '\n' :: (indentSp (L + 1) ++ ('"' :: (escBody k ++ '"' ::
                    (':' :: ' ' :: (dumpsV (L + 1) v ++
                      (dumpsPairsTail (L + 1) tl ++ (('\n' :: indentSp L) ++ '\x7d' :: rest))))))) := by
                simp only [dumpsV]
                rw [dumpsPairs_decomp (L + 1) tl k v, escString]
                simp [List.append_assoc]
              rw [hshape]
              simp only [parseVal]
              rw [skipWs_nl, skipWs_indent]
              rw [skipWs_cons_not_ws (show isJsonWs '"' = false by decide)]
              split
              · rename_i r2 heq
                injection heq with h1 h2
                exact absurd h1 (by decide)
              · rw [szV, szO] at hf
                rw [wfV, wfO, Bool.and_eq_true, Bool.and_eq_true] at hw
                rw [rtO tl k v JObj.nil f2 (L + 1) ('\n' :: indentSp L) rest (by omega)
                  hw.1.2 hw.2
                  (by
                    intro c hc
                    rcases List.mem_cons.mp hc with h | h
                    · subst h; rfl
                    · exact indentSp_ws L c h)]
                rw [objAppend_nil_left (.cons k v tl)
                  (by
                    rw [wfO, Bool.and_eq_true, Bool.and_eq_true]
                    exact hw)]
termination_by f
decreasing_by all_goals omega
/-- Round trip for the serialized elements of a non-empty array, from
the position of the first element. -/
theorem rtA (a : JArr) (x : JVal) (f L : Nat) (W rest : List Char)
    (hf : szV x + szA a ≤ f) (hwx : wfV x = true) (hwa : wfA a = true)
    (hW : ∀ c ∈ W, isJsonWs c = true) :
    parseElems f (dumpsV L x ++ (dumpsItemsTail L a ++ (W ++ ']' :: rest))) =
      .ok (.cons x a, rest) := by
  cases f with
  | zero => exact absurd hf (by have h1 := szV_pos x; have h2 := szA_pos a; omega)
  | succ f2 =>
      simp only [parseElems]
      rw [rtV x f2 L _ (by have := szA_pos a; omega) hwx
        (headNotDigit_itemsTail L a W hW ']' (by decide) rest)]
      simp only []
      cases a with
      | nil =>
          rw [show dumpsItemsTail L .nil ++ (W ++ ']' :: rest) = W ++ ']' :: rest from rfl]
          rw [skipWs_ws_append hW, skipWs_cons_not_ws (show isJsonWs ']' = false by decide)]
          rfl
      | cons y tl =>
          rw [show dumpsItemsTail L (.cons y tl) ++ (W ++ ']' :: rest) =
              ',' :: '\n' :: (indentSp L ++ (dumpsV L y ++ (dumpsItemsTail L tl ++ (W ++ ']' :: rest)))) by
            rw [dumpsItemsTail]
            simp [List.append_assoc]]
          rw [skipWs_cons_not_ws (show isJsonWs ',' = false by decide)]
          simp only []
          rw [skipWs_nl, skipWs_indent, skipWs_dumpsV]
          rw [szA] at hf
          rw [wfA, Bool.and_eq_true] at hwa
          rw [rtA tl y f2 L W rest (by have := szV_pos x; omega) hwa.1 hwa.2 hW]
termination_by f
decreasing_by all_goals omega
/-- Round trip for the serialized members of a non-empty object, from
the opening quote of the first key, with an arbitrary accumulator. -/
theorem rtO (o : JObj) (k : List Char) (v : JVal) (acc : JObj) (f L : Nat) (W rest : List Char)
    (hf : szV v + szO o ≤ f) (hwv : wfV v = true) (hwo : wfO o = true)
    (hW : ∀ c ∈ W, isJsonWs c = true) :
    parseMembers f acc ('"' :: (escBody k ++ '"' :: (':' :: ' ' ::
        (dumpsV L v ++ (dumpsPairsTail L o ++ (W ++ '\x7d' :: rest)))))) =
      .ok (objAppend acc (.cons k v o), rest) := by
  cases f with
  | zero => exact absurd hf (by have h1 := szV_pos v; have h2 := szO_pos o; omega)
  | succ f2 =>
      simp only [parseMembers]
      rw [parseStr_escBody k _ _]
      simp only []
      rw [skipWs_cons_not_ws (show isJsonWs ':' = false by decide)]
      simp only []
      rw [skipWs_space, skipWs_dumpsV]
      rw [rtV v f2 L _ (by have := szO_pos o; omega) hwv
        (headNotDigit_pairsTail L o W hW '\x7d' (by decide) rest)]
      simp only []
      cases o with
      | nil =>
          rw [show dumpsPairsTail L .nil ++ (W ++ '\x7d' :: rest) = W ++ '\x7d' :: rest from rfl]
          rw [skipWs_ws_append hW, skipWs_cons_not_ws (show isJsonWs '\x7d' = false by decide)]
          rfl
      | cons k2 v2 tl =>
          rw [show dumpsPairsTail L (.cons k2 v2 tl) ++ (W ++ '\x7d' :: rest) =
              ',' :: '\n' :: (indentSp L ++ ('"' :: (escBody k2 ++ '"' :: (':' :: ' ' ::
                (dumpsV L v2 ++ (dumpsPairsTail L tl ++ (W ++ '\x7d' :: rest))))))) by
            rw [dumpsPairsTail, escString]
            simp [List.append_assoc]]
          rw [skipWs_cons_not_ws (show isJsonWs ',' = false by decide)]
          simp only []
          rw [skipWs_nl, skipWs_indent]
          rw [skipWs_cons_not_ws (show isJsonWs '"' = false by decide)]
          rw [szO] at hf
          rw [wfO, Bool.and_eq_true, Bool.and_eq_true] at hwo
          rw [rtO tl k2 v2 (objUpd acc k v) f2 L W rest (by have := szV_pos v; omega)
            hwo.1.2 hwo.2 hW]
          rfl
termination_by f
decreasing_by all_goals omega
end


mutual
/-- The fuel measure of a value is bounded by the length of its
serialization. -/
theorem szV_le (v : JVal) (L : Nat) : szV v ≤ (dumpsV L v).length := by
  cases v with
  | null => rw [szV]; simp [dumpsV]
  | bool b => cases b <;> (rw [szV]; simp [dumpsV])
  | num i =>
      rw [szV]
      obtain ⟨c, t, hct, _⟩ := intRepr_head i
      rw [show dumpsV L (.num i) = intRepr i from rfl, hct]
      simp
  | str s =>
      rw [szV]
      rw [show dumpsV L (.str s) = escString s from rfl, escString]
      simp
  | arr a =>
      cases a with
      | nil => rw [szV, szA]; simp [dumpsV]
      | cons x tl =>
          have h1 := szV_le x (L + 1)
          have h2 := szA_le tl (L + 1)
          rw [szV, szA]
          rw [show dumpsV L (.arr (.cons x tl)) =
              '[' :: '\n' :: (dumpsItems (L + 1) (.cons x tl) ++ '\n' :: (indentSp L ++ [']']))
              from by simp only [dumpsV]]
          rw [dumpsItems_decomp]
          simp only [List.length_cons, List.length_append, indentSp, List.length_replicate]
          omega
  | obj o =>
      cases o with
      | nil => rw [szV, szO]; simp [dumpsV]
      | cons k v tl =>
          have h1 := szV_le v (L + 1)
          have h2 := szO_le tl (L + 1)
          rw [szV, szO]
          rw [show dumpsV L (.obj (.cons k v tl)) =
              '\x7b' :: '\n' :: (dumpsPairs (L + 1) (.cons k v tl) ++ '\n' :: (indentSp L ++ ['\x7d']))
              from by simp only [dumpsV]]
          rw [dumpsPairs_decomp]
          simp only [List.length_cons, List.length_append, indentSp, List.length_replicate]
          omega
/-- Fuel bound for the items after the first array element. -/
theorem szA_le (a : JArr) (L : Nat) : szA a ≤ (dumpsItemsTail L a).length + 1 := by
  cases a with
  | nil => rw [szA]; simp [dumpsItemsTail]
  | cons y tl =>
      have h1 := szV_le y L
      have h2 := szA_le tl L
      rw [szA, dumpsItemsTail]
      simp only [List.length_cons, List.length_append, indentSp, List.length_replicate]
      omega
/-- Fuel bound for the members after the first object pair. -/
theorem szO_le (o : JObj) (L : Nat) : szO o ≤ (dumpsPairsTail L o).length + 1 := by
  cases o with
  | nil => rw [szO]; simp [dumpsPairsTail]
  | cons k v tl =>
      have h1 := szV_le v L
      have h2 := szO_le tl L
      rw [szO, dumpsPairsTail]
      simp only [List.length_cons, List.length_append, indentSp, List.length_replicate]
      omega
end

/-- The serializer output parses back to exactly the serialized
value. -/
theorem loads_dumps (v : JVal) (hw : wfV v = true) : loads (dumps v) = .ok v := by
  have h := rtV v ((dumps v).length + 1) 0 []
    (by have := szV_le v 0; rw [dumps]; omega) hw rfl
  rw [List.append_nil] at h
  rw [loads]
  rw [show skipWs (dumps v) = dumps v from by
    have h2 := skipWs_dumpsV 0 v []
    rw [List.append_nil] at h2
    rw [dumps]
    exact h2]
  rw [show parseVal ((dumps v).length + 1) (dumps v) = .ok (v, []) from by rw [dumps] at h ⊢; exact h]
  rfl

/-- Values returned by the modelled json.loads are well-formed. -/
theorem loads_wf (cs : List Char) (v : JVal) (h : loads cs = .ok v) : wfV v = true := by
  unfold loads at h
  cases hp : parseVal (cs.length + 1) (skipWs cs) with
  | error e => rw [hp] at h; exact absurd h (by simp)
  | ok pr =>
      obtain ⟨v2, r⟩ := pr
      rw [hp] at h
      replace h : (match skipWs r with
        | [] => Except.ok v2
        | r2 => Except.error (⟨"Extra data".data, r2.length⟩ : PErr)) = Except.ok v := h
      cases hs : skipWs r with
      | nil =>
          rw [hs] at h
          simp only [Except.ok.injEq] at h
          subst h
          exact (parse_wf (cs.length + 1)).1 _ _ _ hp
      | cons c r2 => rw [hs] at h; exact absurd h (by simp)

/-- C1 counterexample: normalization is not idempotent on the claimed
full domain.  The input holds a string value whose content, written with
a   escape, survives the first cleaning; the emitted output spells
that content literally as comma, space, closing bracket, so the second
run of the trailing-comma normalizer deletes the comma inside the string
and the re-emitted text changes. -/
theorem C1_counterexample :
    normalize "\x7b\"k\": \"a,\\u0020]\"\x7d".data = .ok "\x7b\n  \"k\": \"a, ]\"\n\x7d".data ∧
    normalize "\x7b\n  \"k\": \"a, ]\"\n\x7d".data = .ok "\x7b\n  \"k\": \"a ]\"\n\x7d".data ∧
    "\x7b\n  \"k\": \"a, ]\"\n\x7d".data ≠ "\x7b\n  \"k\": \"a ]\"\n\x7d".data :=
  ⟨by rfl, by rfl, by decide⟩

/-- C1 amended: if normalize succeeds on x and the cleaning stage leaves
the emitted output unchanged, then normalize applied to that output
succeeds, returns the output itself, and parses it to the same value as
the first application.  The extra hypothesis excludes exactly the
documented trailing-comma-inside-string limitation of section 9: on
outputs whose string values do not contain a comma followed by
whitespace and a closing bracket, the cleaning passes are the identity
and the hypothesis holds. -/
theorem C1_amended (x out : List Char) (h1 : normalize x = .ok out)
    (h2 : cleanedText out = out) :
    normalize out = .ok out ∧ clean_json_content out = clean_json_content x := by
  unfold normalize at h1
  cases hx : clean_json_content x with
  | error d => rw [hx] at h1; exact absurd h1 (by simp)
  | ok v =>
      rw [hx] at h1
      simp only [Except.ok.injEq] at h1
      subst h1
      have hwf : wfV v = true := by
        unfold clean_json_content at hx
        cases hl : loads (cleanedText x) with
        | error e => rw [hl] at hx; exact absurd hx (by simp)
        | ok v2 =>
            rw [hl] at hx
            simp only [Except.ok.injEq] at hx
            subst hx
            exact loads_wf _ _ hl
      have hco : clean_json_content (dumps v) = .ok v := by
        unfold clean_json_content
        rw [h2, loads_dumps v hwf]
      refine ⟨?_, ?_⟩
      · unfold normalize
        rw [hco]
      · exact hco

/-- Witness for C1 amended at a concrete input whose output the cleaning
stage leaves unchanged. -/
theorem C1_amended_witness :
    normalize "\x7b\"a\": 1\x7d".data = .ok "\x7b\n  \"a\": 1\n\x7d".data ∧
    cleanedText "\x7b\n  \"a\": 1\n\x7d".data = "\x7b\n  \"a\": 1\n\x7d".data ∧
    (normalize "\x7b\n  \"a\": 1\n\x7d".data = .ok "\x7b\n  \"a\": 1\n\x7d".data ∧
     clean_json_content "\x7b\n  \"a\": 1\n\x7d".data
       = clean_json_content "\x7b\"a\": 1\x7d".data) :=
  ⟨by rfl, by rfl,
   C1_amended "\x7b\"a\": 1\x7d".data "\x7b\n  \"a\": 1\n\x7d".data (by rfl) (by rfl)⟩
end Unre
